import Mathlib

/-!
# Verification of the LDPC sum-product decoder (`ldpc.c`)

A shallow embedding of the decoder from `ldpc.c`: the fixed parity-check
matrix, the channel probability/LLR conversions, the per-round message
passing of `state_solve`, the snapshot history, and the key handling that
nudges channel priors.  Machine doubles are modelled as real numbers.

Naming follows the source.  Note that in the source the two message arrays
are named transposed relative to their mathematical roles:
`message_v_to_c` stores the tanh-product (check-combining) messages and
`message_c_to_v` stores the incoming variable-side values.
-/

namespace Ldpc

/-- The hardcoded LDPC parity-check matrix (`matrix` in the source). -/
def matrix : List (List ℕ) :=
  [[1, 1, 0, 1, 0, 0],
   [0, 1, 1, 0, 1, 0],
   [1, 0, 0, 0, 1, 1],
   [0, 0, 1, 1, 0, 1]]

/-- Initial channel LLR values (`initial_r` in the source). -/
noncomputable def initial_r : List ℝ := [-0.5, 2.50, -4.0, 5.0, -3.5, 2.5]

/-- The constant `N_ITERATIONS` of the source. -/
def N_ITERATIONS : ℕ := 8

/-- Helper `l_to_p`: LLR to probability, `exp(l)/(1+exp(l))`. -/
noncomputable def l_to_p (l : ℝ) : ℝ := Real.exp l / (1 + Real.exp l)

/-- Helper `p_to_l`: probability to LLR, `log(p/(1-p))`. -/
noncomputable def p_to_l (p : ℝ) : ℝ := Real.log (p / (1 - p))

/-- One round snapshot (`struct iteration`); the `next` pointer is modelled
by the position in the history list.  Arrays become total functions; the
program only ever reads the in-range (and for messages, edge-guarded)
entries. -/
structure Snapshot where
  message_v_to_c : ℕ → ℕ → ℝ
  l : ℕ → ℝ
  message_c_to_v : ℕ → ℕ → ℝ
  codeword : ℕ → ℕ
  parity : ℕ → ℕ

/-- The `struct state` of the source.  The `first_iteration` linked list is modelled as the
list `history`, head = first (round 0). -/
structure State where
  cursor : ℕ
  page : ℤ
  iterations : ℕ
  n_v : ℕ
  n_c : ℕ
  channel : ℕ → ℝ
  channel_llr : ℕ → ℝ
  matrix : ℕ → ℕ → ℕ
  history : List Snapshot

/-- Content of a freshly `malloc`ed snapshot: the source leaves it
uninitialized and overwrites every used entry in `state_solve`; we pick 0. -/
noncomputable def emptySnapshot : Snapshot :=
  ⟨fun _ _ => 0, fun _ => 0, fun _ _ => 0, fun _ => 0, fun _ => 0⟩

/-- Source function `calc_message_v_to_c(s, iteration, v, c)`:
`t = prod over i != v with matrix[c][i] of tanh(message_c_to_v[c][i]/2)`,
result `log((1+t)/(1-t))`.  The iteration's `message_c_to_v` array is the
argument `mcv`. -/
noncomputable def calc_message_v_to_c (s : State) (mcv : ℕ → ℕ → ℝ) (v c : ℕ) : ℝ :=
  let t := ∏ i ∈ Finset.range s.n_v,
    if i ≠ v ∧ s.matrix c i ≠ 0 then Real.tanh (mcv c i / 2) else 1
  Real.log ((1 + t) / (1 - t))

/-- Source function `calc_message_c_to_v(s, iteration, v, c)`:
`channel_llr[v] + sum over i != c with matrix[i][v] == 1 of
message_v_to_c[i][v]`.  The iteration's `message_v_to_c` array is the
argument `mvc`. -/
noncomputable def calc_message_c_to_v (s : State) (mvc : ℕ → ℕ → ℝ) (v c : ℕ) : ℝ :=
  s.channel_llr v + ∑ i ∈ Finset.range s.n_c,
    if i ≠ c ∧ s.matrix i v = 1 then mvc i v else 0

/-- The body of the `while(current != NULL)` loop of `state_solve` filling
one snapshot, given the already-stored incoming values `mcv`
(`current->message_c_to_v`): check messages for every (c,v) position,
beliefs `l`, hard decisions `codeword`, and `parity` accumulated by xor in
ascending `v` order. -/
noncomputable def mk_iteration (s : State) (mcv : ℕ → ℕ → ℝ) : Snapshot :=
  let mvc := fun c v => calc_message_v_to_c s mcv v c
  let lv := fun v => s.channel_llr v +
    ∑ i ∈ Finset.range s.n_c, if s.matrix i v ≠ 0 then mvc i v else 0
  let cw := fun v => if lv v < 0 then 1 else 0
  let par := fun c =>
    List.foldl (fun a v => if s.matrix c v ≠ 0 then a ^^^ cw v else a) 0 (List.range s.n_v)
  ⟨mvc, lv, mcv, cw, par⟩

/-- The `while(current != NULL)` loop of `state_solve`, walking a history
list of the given length: fill the current snapshot from its incoming
values, and, only when a next snapshot exists, store into it the prepared
values `calc_message_c_to_v` (skipped on the final round). -/
noncomputable def solve_loop (s : State) : (ℕ → ℕ → ℝ) → ℕ → List Snapshot
  | _, 0 => []
  | mcv, n + 1 =>
    let it := mk_iteration s mcv
    if n = 0 then [it]
    else it :: solve_loop s (fun c v => calc_message_c_to_v s it.message_v_to_c v c) n

/-- The channel LLRs recomputed at the top of `state_solve` (entries at
`v ≥ n_v` are untouched memory). -/
noncomputable def post_llr (s : State) : ℕ → ℝ :=
  fun v => if v < s.n_v then p_to_l (s.channel v) else s.channel_llr v

/-- Source function `state_solve`: recompute `channel_llr` from `channel`, seed the first
snapshot's `message_c_to_v` with the channel LLRs, then run the round
loop over the preallocated history. -/
noncomputable def state_solve (s : State) : State :=
  let s1 : State := { s with channel_llr := post_llr s }
  { s1 with history := solve_loop s1 (fun _ v => post_llr s v) s.history.length }

/-- Source function `state_new(n_i)`: dimensions from the hardcoded matrix, initial channel
probabilities `l_to_p(initial_r[i])` (with the source's `0.50` fallback
branch for indices beyond `initial_r`), matrix copy, and `n_i`
preallocated snapshots. -/
noncomputable def state_new (n_i : ℕ) : State :=
  { cursor := 0
    page := 0
    iterations := n_i
    n_v := (matrix.getD 0 []).length
    n_c := matrix.length
    channel := fun i => if i < initial_r.length then l_to_p (initial_r.getD i 0) else 0.50
    channel_llr := fun _ => 0
    matrix := fun c v => (matrix.getD c []).getD v 0
    history := List.replicate n_i emptySnapshot }

/-- Closed form of the incoming values (`message_c_to_v`) stored in round
`r`'s snapshot by `state_solve` (for a state whose `channel_llr` is
already recomputed): round 0 is seeded with the channel LLRs for every
position; round `r+1` holds the values prepared at the end of round `r`. -/
noncomputable def round_mcv (s : State) : ℕ → ℕ → ℕ → ℝ
  | 0 => fun _ v => s.channel_llr v
  | r + 1 => fun c v =>
    calc_message_c_to_v s (fun i w => calc_message_v_to_c s (round_mcv s r) w i) v c

/-- Closed form of round `r`'s snapshot. -/
noncomputable def round_snapshot (s : State) (r : ℕ) : Snapshot :=
  mk_iteration s (round_mcv s r)

/-- The `valid` flag computed by the display code: scan `parity`, clear on
any nonzero entry. -/
def display_valid (nc : ℕ) (par : ℕ → ℕ) : Bool :=
  List.foldl (fun acc i => if par i ≠ 0 then false else acc) true (List.range nc)

/-- The key codes `process_keys` distinguishes. -/
inductive Key where
  | esc
  | keyQ
  | ppage
  | npage
  | left
  | right
  | up
  | down
  | other

/-- The `KEY_UP` update of the selected prior: floor-snap to the 0.01 grid,
then step down by 0.01 if strictly above 0.01, else set 0.01. -/
noncomputable def key_up_prior (p : ℝ) : ℝ :=
  let p0 := (⌊p * 100⌋ : ℝ) / 100
  if p0 > 0.01 then p0 - 0.01 else 0.01

/-- The `KEY_DOWN` update of the selected prior: floor-snap to the 0.01
grid, then step up by 0.01 if strictly below 0.99, else set 0.99. -/
noncomputable def key_down_prior (p : ℝ) : ℝ :=
  let p0 := (⌊p * 100⌋ : ℝ) / 100
  if p0 < 0.99 then p0 + 0.01 else 0.99

/-- Source function `process_keys`, returning the new state and the continue flag (`0` is
returned in the source for ESC/q/Q). -/
noncomputable def process_keys (k : Key) (s : State) : State × Bool :=
  match k with
  | .esc => (s, false)
  | .keyQ => (s, false)
  | .ppage => (if 0 < s.page then { s with page := s.page - 1 } else s, true)
  | .npage => (if s.page < (s.iterations : ℤ) - 1 then { s with page := s.page + 1 } else s, true)
  | .left => ({ s with cursor := if s.cursor = 0 then s.n_v - 1 else s.cursor - 1 }, true)
  | .right => ({ s with cursor := if s.cursor = s.n_v - 1 then 0 else s.cursor + 1 }, true)
  | .up =>
    (state_solve { s with
      channel := Function.update s.channel s.cursor (key_up_prior (s.channel s.cursor)) }, true)
  | .down =>
    (state_solve { s with
      channel := Function.update s.channel s.cursor (key_down_prior (s.channel s.cursor)) }, true)
  | .other => (s, true)

/-!
### Certified interval arithmetic for the end-to-end example

The example run (hardcoded matrix, `initial_r`, 8 rounds) is analysed in
the "tanh-half domain": every stored incoming value `m` is tracked through
`tanh(m/2)`.  There the check rule becomes a plain product and the sum
rules become the tanh addition law `mob u v = (u+v)/(1+uv)`, so after the
six seeds `tanh(llr/2)` no transcendental function appears and the whole
run can be enclosed in rational intervals, computed by `decide`.
-/

/-- The tanh addition law's rational function, `(u+v)/(1+uv)`. -/
noncomputable def mob (u v : ℝ) : ℝ := (u + v) / (1 + u * v)

/-- The fixed denominator of the interval arithmetic: all bounds are
integers at scale `sc = 2⁵⁰`. -/
def sc : ℤ := 2 ^ 50

/-- An interval `[lo/sc, hi/sc]` with integer endpoints at scale `sc`. -/
structure Iv where
  lo : ℤ
  hi : ℤ

/-- Interval membership, read over ℝ. -/
def memIv (x : ℝ) (A : Iv) : Prop :=
  (A.lo : ℝ) / (sc : ℝ) ≤ x ∧ x ≤ (A.hi : ℝ) / (sc : ℝ)

/-- Ceiling division (for rounding upper bounds outward); the plain `/` on
`ℤ` rounds toward `-∞` for the positive divisors used here. -/
def cdiv (a b : ℤ) : ℤ := -(-a / b)

/-- Build an interval from bounds given at scale `sc²` : round outward to
scale `sc` and clamp to `[-1, 1]` (every tracked quantity is a `tanh`
value or a product of them). -/
def mkIv (l h : ℤ) : Iv := ⟨max (l / sc) (-sc), min (cdiv h sc) sc⟩

/-- Interval product. -/
def imul (A B : Iv) : Iv :=
  mkIv (min (min (A.lo * B.lo) (A.lo * B.hi)) (min (A.hi * B.lo) (A.hi * B.hi)))
       (max (max (A.lo * B.lo) (A.lo * B.hi)) (max (A.hi * B.lo) (A.hi * B.hi)))

/-- Floor of `mob (a/sc) (b/sc)` at scale `sc`: `mob` is
`sc·(a+b)/(sc² + a·b)` there, so scale the numerator by `sc` once more. -/
def qmobDn (a b : ℤ) : ℤ := sc ^ 2 * (a + b) / (sc ^ 2 + a * b)

/-- Ceiling counterpart of `qmobDn`. -/
def qmobUp (a b : ℤ) : ℤ := cdiv (sc ^ 2 * (a + b)) (sc ^ 2 + a * b)

/-- Interval `mob` (monotone in both arguments on `[-1,1]`), clamped. -/
def imob (A B : Iv) : Iv :=
  ⟨max (qmobDn A.lo B.lo) (-sc), min (qmobUp A.hi B.hi) sc⟩

/-- The example's parity-check matrix as a total function (identical to the
`matrix` field built by `state_new`). -/
def matQ (c v : ℕ) : ℕ := (matrix.getD c []).getD v 0

/-- Certified enclosures of the six seed values `tanh(initial_r[v]/2)`,
at scale `sc`. -/
def tau0 : ℕ → Iv
  | 0 => ⟨-275753899184357, -275753899184342⟩
  | 1 => ⟨955082471204265, 955082471204287⟩
  | 2 => ⟨-1085398562601083, -1085398562601074⟩
  | 3 => ⟨1110828946378292, 1110828946378297⟩
  | 4 => ⟨-1059894631098022, -1059894631098009⟩
  | 5 => ⟨955082471204265, 955082471204287⟩
  | _ => ⟨-sc, sc⟩

/-- Real guarded product fold (the check rule's product in the tanh
domain). -/
noncomputable def prodFoldR (f : ℕ → ℝ) (p : ℕ → Prop) [DecidablePred p] (n : ℕ) : ℝ :=
  List.foldl (fun a i => if p i then a * f i else a) 1 (List.range n)

/-- Interval guarded product fold. -/
def prodFoldI (F : ℕ → Iv) (p : ℕ → Prop) [DecidablePred p] (n : ℕ) : Iv :=
  List.foldl (fun a i => if p i then imul a (F i) else a) ⟨sc, sc⟩ (List.range n)

/-- Real guarded `mob` fold (a guarded LLR sum in the tanh domain). -/
noncomputable def mobFoldR (x0 : ℝ) (f : ℕ → ℝ) (p : ℕ → Prop) [DecidablePred p] (n : ℕ) : ℝ :=
  List.foldl (fun a i => if p i then mob a (f i) else a) x0 (List.range n)

/-- Interval guarded `mob` fold. -/
def mobFoldI (A0 : Iv) (F : ℕ → Iv) (p : ℕ → Prop) [DecidablePred p] (n : ℕ) : Iv :=
  List.foldl (fun a i => if p i then imob a (F i) else a) A0 (List.range n)

/-- Table access, rows indexed by check. -/
def tget (T : List (List Iv)) (c v : ℕ) : Iv := (T.getD c []).getD v ⟨-sc, sc⟩

/-- Interval enclosure of the tanh-domain check product `t(c, v)` from a
table of incoming enclosures. -/
def tIvTab (T : List (List Iv)) (c v : ℕ) : Iv :=
  prodFoldI (fun j => tget T c j) (fun j => j ≠ v ∧ matQ c j ≠ 0) 6

/-- Round 0 table: every position seeded with its channel enclosure. -/
def tab0 : List (List Iv) :=
  (List.range 4).map (fun _ => (List.range 6).map (fun v => tau0 v))

/-- One interval round: enclose the next incoming values
`tanh(message_c_to_v/2)` at every in-range position. -/
def stepTab (T : List (List Iv)) : List (List Iv) :=
  (List.range 4).map (fun c => (List.range 6).map (fun v =>
    mobFoldI (tau0 v) (fun i => tIvTab T i v) (fun i => i ≠ c ∧ matQ i v = 1) 4))

/-- The interval tables for every round of the example run. -/
def tabs : ℕ → List (List Iv)
  | 0 => tab0
  | r + 1 => stepTab (tabs r)

/-- Interval enclosure of `tanh(belief/2)` at round `r`. -/
def beliefIv (r v : ℕ) : Iv :=
  mobFoldI (tau0 v) (fun i => tIvTab (tabs r) i v) (fun i => matQ i v ≠ 0) 4

/-- The state the example run's snapshots are computed over: `state_new 8`
with its channel LLRs recomputed by `state_solve`. -/
noncomputable def exState : State :=
  { state_new 8 with channel_llr := post_llr (state_new 8) }

/-- The example run's incoming values, in the tanh-half domain. -/
noncomputable def thetaE (r c v : ℕ) : ℝ := Real.tanh (round_mcv exState r c v / 2)

/-- The example run's tanh-domain check products. -/
noncomputable def tE (r c v : ℕ) : ℝ :=
  prodFoldR (fun i => thetaE r c i) (fun i => i ≠ v ∧ matQ c i ≠ 0) 6

/-! ### Bridge lemmas: the solve loop fills round `r` with `round_snapshot r` -/

lemma mk_iteration_message_v_to_c (s : State) (mcv : ℕ → ℕ → ℝ) :
    (mk_iteration s mcv).message_v_to_c = fun c v => calc_message_v_to_c s mcv v c := rfl

lemma mk_iteration_message_c_to_v (s : State) (mcv : ℕ → ℕ → ℝ) :
    (mk_iteration s mcv).message_c_to_v = mcv := rfl

lemma mk_iteration_l (s : State) (mcv : ℕ → ℕ → ℝ) :
    (mk_iteration s mcv).l = fun v => s.channel_llr v +
      ∑ i ∈ Finset.range s.n_c,
        if s.matrix i v ≠ 0 then calc_message_v_to_c s mcv v i else 0 := rfl

lemma mk_iteration_codeword (s : State) (mcv : ℕ → ℕ → ℝ) :
    (mk_iteration s mcv).codeword = fun v =>
      if (mk_iteration s mcv).l v < 0 then 1 else 0 := rfl

lemma mk_iteration_parity (s : State) (mcv : ℕ → ℕ → ℝ) :
    (mk_iteration s mcv).parity = fun c =>
      List.foldl (fun a v => if s.matrix c v ≠ 0 then a ^^^ (mk_iteration s mcv).codeword v else a)
        0 (List.range s.n_v) := rfl

lemma solve_loop_eq_map (s : State) (n : ℕ) : ∀ r0 : ℕ,
    solve_loop s (round_mcv s r0) n =
      (List.range n).map (fun k => round_snapshot s (r0 + k)) := by
  induction n with
  | zero => intro r0; simp [solve_loop]
  | succ n ih =>
    intro r0
    rcases Nat.eq_zero_or_pos n with h | h
    · subst h
      simp [solve_loop, round_snapshot, List.range_succ]
    · rw [solve_loop]
      simp only [Nat.pos_iff_ne_zero] at h
      rw [if_neg h]
      have hprep : (fun c v =>
          calc_message_c_to_v s (mk_iteration s (round_mcv s r0)).message_v_to_c v c) =
          round_mcv s (r0 + 1) := rfl
      rw [hprep, ih (r0 + 1), List.range_succ_eq_map]
      simp only [List.map_cons, List.map_map, Nat.add_zero]
      refine congrArg₂ _ rfl ?_
      refine List.map_congr_left fun k _ => ?_
      simp only [Function.comp_apply, round_snapshot]
      have : r0 + 1 + k = r0 + (k + 1) := by omega
      rw [this]

lemma state_solve_history (s : State) :
    (state_solve s).history =
      (List.range s.history.length).map
        (round_snapshot { s with channel_llr := post_llr s }) := by
  have h0 : (fun (_ : ℕ) v => post_llr s v) =
      round_mcv { s with channel_llr := post_llr s } 0 := rfl
  show solve_loop { s with channel_llr := post_llr s } (fun _ v => post_llr s v)
      s.history.length = _
  rw [h0, solve_loop_eq_map]
  simp

lemma state_solve_getD (s : State) (r : ℕ) (hr : r < s.history.length) (d : Snapshot) :
    (state_solve s).history.getD r d =
      round_snapshot { s with channel_llr := post_llr s } r := by
  rw [state_solve_history, List.getD_eq_getElem?_getD]
  rw [List.getElem?_map]
  simp [List.getElem?_range hr]

/-! ### C1: the check-message (tanh-product) rule -/

/-- C1: for every round `r` and edge `(c, v)`, the check message stored in
round `r`'s snapshot (the source's `message_v_to_c`) equals
`log((1 + t) / (1 - t))` where `t` is the product over variables `v' ≠ v`
connected to check `c` of `tanh(incoming(c, v') / 2)`; for `r = 0` the
incoming value is the channel LLR `llr_of(v') = p_to_l(channel[v'])`, and
for `r > 0` it is the variable message prepared at the end of round `r-1`,
namely `llr_of(v')` plus the round-`r-1` check messages of the other
checks of `v'`. -/
theorem check_message_rule (s : State) (r c v : ℕ) (d : Snapshot)
    (hr : r < s.history.length) (hc : c < s.n_c) (hv : v < s.n_v)
    (hedge : s.matrix c v = 1) :
    ((state_solve s).history.getD r d).message_v_to_c c v =
      (let inc : ℕ → ℝ := fun w =>
        if r = 0 then p_to_l (s.channel w)
        else p_to_l (s.channel w) +
          ∑ c2 ∈ (Finset.range s.n_c).filter (fun c2 => c2 ≠ c ∧ s.matrix c2 w = 1),
            ((state_solve s).history.getD (r - 1) d).message_v_to_c c2 w
      let t : ℝ :=
        ∏ w ∈ (Finset.range s.n_v).filter (fun w => w ≠ v ∧ s.matrix c w ≠ 0),
          Real.tanh (inc w / 2)
      Real.log ((1 + t) / (1 - t))) := by
  rw [state_solve_getD s r hr d]
  simp only [round_snapshot]
  rw [show (mk_iteration { s with channel_llr := post_llr s }
      (round_mcv { s with channel_llr := post_llr s } r)).message_v_to_c c v =
    calc_message_v_to_c { s with channel_llr := post_llr s }
      (round_mcv { s with channel_llr := post_llr s } r) v c from rfl]
  simp only [calc_message_v_to_c]
  refine congrArg Real.log ?_
  have hprod : ∀ inc2 : ℕ → ℝ,
      (∀ i, i ∈ Finset.range s.n_v → (i ≠ v ∧ s.matrix c i ≠ 0) →
        round_mcv { s with channel_llr := post_llr s } r c i = inc2 i) →
      (∏ i ∈ Finset.range s.n_v,
        if i ≠ v ∧ s.matrix c i ≠ 0 then
          Real.tanh (round_mcv { s with channel_llr := post_llr s } r c i / 2) else 1) =
      ∏ w ∈ (Finset.range s.n_v).filter (fun w => w ≠ v ∧ s.matrix c w ≠ 0),
        Real.tanh (inc2 w / 2) := by
    intro inc2 hinc
    rw [Finset.prod_filter]
    refine Finset.prod_congr rfl fun i hi => ?_
    by_cases hp : i ≠ v ∧ s.matrix c i ≠ 0
    · rw [if_pos hp, if_pos hp, hinc i hi hp]
    · rw [if_neg hp, if_neg hp]
  rcases r with _ | r0
  · simp only [eq_self_iff_true, if_true]
    have hP := hprod (fun w => p_to_l (s.channel w)) (fun i hi _ => by
      simp only [round_mcv, post_llr]
      rw [if_pos (Finset.mem_range.mp hi)])
    rw [hP]
  · simp only [Nat.succ_ne_zero, if_false, Nat.add_sub_cancel]
    have hgd0 : ∀ c2 w, ((state_solve s).history.getD r0 d).message_v_to_c c2 w =
        calc_message_v_to_c { s with channel_llr := post_llr s }
          (round_mcv { s with channel_llr := post_llr s } r0) w c2 := by
      intro c2 w
      rw [state_solve_getD s r0 (by omega) d]
      rfl
    have hP := hprod (fun w => p_to_l (s.channel w) +
        ∑ c2 ∈ (Finset.range s.n_c).filter (fun c2 => c2 ≠ c ∧ s.matrix c2 w = 1),
          ((state_solve s).history.getD r0 d).message_v_to_c c2 w) (fun i hi _ => by
      simp only [round_mcv, calc_message_c_to_v]
      have h1 : post_llr s i = p_to_l (s.channel i) := by
        simp only [post_llr]
        rw [if_pos (Finset.mem_range.mp hi)]
      rw [Finset.sum_filter, h1]
      refine congrArg₂ _ rfl (Finset.sum_congr rfl fun j hj => ?_)
      by_cases hq : j ≠ c ∧ s.matrix j i = 1
      · rw [if_pos hq, if_pos hq, hgd0 j i]
      · rw [if_neg hq, if_neg hq])
    rw [hP]

/-! ### C2: the variable-message (extrinsic sum) rule -/

/-- C2: for every round `r` except the last, and every edge `(c, v)`, the
variable message prepared for round `r+1` (stored as round `r+1`'s
`message_c_to_v`) equals `llr_of(v)` plus the sum of round `r`'s check
messages over checks `c' ≠ c` connected to `v`; and the history has
exactly one snapshot per round, so on the final round no snapshot receives
a prepared message (the preparation step is skipped). -/
theorem variable_message_rule (s : State) (r c v : ℕ) (d : Snapshot)
    (hr : r + 1 < s.history.length) (hc : c < s.n_c) (hv : v < s.n_v)
    (hedge : s.matrix c v = 1) :
    ((state_solve s).history.getD (r + 1) d).message_c_to_v c v =
      p_to_l (s.channel v) +
        ∑ c2 ∈ (Finset.range s.n_c).filter (fun c2 => c2 ≠ c ∧ s.matrix c2 v = 1),
          ((state_solve s).history.getD r d).message_v_to_c c2 v ∧
    (state_solve s).history.length = s.history.length := by
  constructor
  · rw [state_solve_getD s (r + 1) hr d]
    simp only [round_snapshot, mk_iteration_message_c_to_v]
    simp only [round_mcv, calc_message_c_to_v]
    have h1 : post_llr s v = p_to_l (s.channel v) := by
      simp only [post_llr]
      rw [if_pos hv]
    rw [Finset.sum_filter, h1]
    refine congrArg₂ _ rfl (Finset.sum_congr rfl fun j hj => ?_)
    by_cases hq : j ≠ c ∧ s.matrix j v = 1
    · rw [if_pos hq, if_pos hq, state_solve_getD s r (by omega) d]
      rfl
    · rw [if_neg hq, if_neg hq]
  · rw [state_solve_history]
    simp

/-! ### C3: belief aggregation and hard decision -/

/-- C3: for every round `r` and variable `v`, the stored belief equals
`llr_of(v)` plus the sum of round `r`'s check messages over all checks
connected to `v`, and the codeword bit is 1 exactly when the belief is
strictly negative (a belief of exactly 0 decodes to bit 0). -/
theorem belief_rule (s : State) (r v : ℕ) (d : Snapshot)
    (hr : r < s.history.length) (hv : v < s.n_v) :
    ((state_solve s).history.getD r d).l v =
      p_to_l (s.channel v) +
        ∑ c2 ∈ (Finset.range s.n_c).filter (fun c2 => s.matrix c2 v ≠ 0),
          ((state_solve s).history.getD r d).message_v_to_c c2 v ∧
    ((state_solve s).history.getD r d).codeword v =
      if ((state_solve s).history.getD r d).l v < 0 then 1 else 0 := by
  constructor
  · rw [state_solve_getD s r hr d]
    simp only [round_snapshot, mk_iteration_l]
    have h1 : post_llr s v = p_to_l (s.channel v) := by
      simp only [post_llr]
      rw [if_pos hv]
    rw [Finset.sum_filter, h1]
    refine congrArg₂ _ rfl (Finset.sum_congr rfl fun j hj => ?_)
    by_cases hq : s.matrix j v ≠ 0
    · rw [if_pos hq, if_pos hq]
      rfl
    · rw [if_neg hq, if_neg hq]
  · rw [state_solve_getD s r hr d]
    rfl

/-! ### C4: syndrome via xor, and validity -/

lemma xor_bit_eq (S b : ℕ) (hb : b ≤ 1) : S % 2 ^^^ b = (S + b) % 2 := by
  rcases Nat.le_one_iff_eq_zero_or_eq_one.mp hb with h | h
  · subst h
    simp
  · subst h
    rcases Nat.mod_two_eq_zero_or_one S with h2 | h2 <;> rw [h2]
    · rw [show (0 : ℕ) ^^^ 1 = 1 from by decide]
      omega
    · rw [show (1 : ℕ) ^^^ 1 = 0 from by decide]
      omega

lemma parity_fold_eq (g : ℕ → Prop) [DecidablePred g] (f : ℕ → ℕ) (hf : ∀ v, f v ≤ 1) :
    ∀ n : ℕ, List.foldl (fun a v => if g v then a ^^^ f v else a) 0 (List.range n)
      = (∑ v ∈ Finset.range n, if g v then f v else 0) % 2 := by
  intro n
  induction n with
  | zero => simp
  | succ n ih =>
    rw [List.range_succ, List.foldl_append, Finset.sum_range_succ, ih]
    simp only [List.foldl_cons, List.foldl_nil]
    by_cases hg : g n
    · rw [if_pos hg, if_pos hg, xor_bit_eq _ _ (hf n)]
    · rw [if_neg hg, if_neg hg, Nat.add_zero]

lemma display_valid_iff (nc : ℕ) (par : ℕ → ℕ) :
    display_valid nc par = true ↔ ∀ c, c < nc → par c = 0 := by
  induction nc with
  | zero => simp [display_valid]
  | succ n ih =>
    unfold display_valid at ih ⊢
    rw [List.range_succ, List.foldl_append]
    simp only [List.foldl_cons, List.foldl_nil]
    by_cases hp : par n ≠ 0
    · rw [if_pos hp]
      constructor
      · intro h
        exact absurd h (by simp)
      · intro h
        exact absurd (h n (Nat.lt_succ_self n)) hp
    · rw [if_neg hp, ih]
      push_neg at hp
      constructor
      · intro h c hc
        rcases Nat.lt_succ_iff_lt_or_eq.mp hc with h2 | h2
        · exact h c h2
        · subst h2
          exact hp
      · intro h c hc
        exact h c (Nat.lt_succ_of_lt hc)

lemma codeword_le_one (s : State) (r : ℕ) (d : Snapshot) (hr : r < s.history.length) (v : ℕ) :
    ((state_solve s).history.getD r d).codeword v ≤ 1 := by
  rw [state_solve_getD s r hr d]
  show (if _ < (0:ℝ) then 1 else 0) ≤ 1
  split <;> norm_num

/-- C4: for every round `r` and check `c`, the stored syndrome entry
`parity[c]` equals the xor (sum mod 2) of the same round's codeword bits
over the variables connected to `c`, and the display layer's validity
flag holds iff every syndrome entry is 0. -/
theorem syndrome_rule (s : State) (r c : ℕ) (d : Snapshot)
    (hr : r < s.history.length) (hc : c < s.n_c) :
    ((state_solve s).history.getD r d).parity c =
      (∑ v ∈ (Finset.range s.n_v).filter (fun v => s.matrix c v ≠ 0),
        ((state_solve s).history.getD r d).codeword v) % 2 ∧
    (display_valid s.n_c ((state_solve s).history.getD r d).parity = true ↔
      ∀ c2, c2 < s.n_c → ((state_solve s).history.getD r d).parity c2 = 0) := by
  refine ⟨?_, display_valid_iff _ _⟩
  have hcw := codeword_le_one s r d hr
  rw [Finset.sum_filter]
  conv_lhs => rw [state_solve_getD s r hr d]
  rw [show (round_snapshot { s with channel_llr := post_llr s } r).parity c =
    List.foldl (fun a v => if s.matrix c v ≠ 0 then
        a ^^^ (round_snapshot { s with channel_llr := post_llr s } r).codeword v else a)
      0 (List.range s.n_v) from rfl]
  have hfold := parity_fold_eq (fun v => s.matrix c v ≠ 0)
    (fun v => (round_snapshot { s with channel_llr := post_llr s } r).codeword v)
    (fun v => by
      have := hcw v
      rwa [state_solve_getD s r hr d] at this) s.n_v
  rw [hfold]
  refine congrArg₂ _ (Finset.sum_congr rfl fun j hj => ?_) rfl
  by_cases hq : s.matrix c j ≠ 0
  · rw [if_pos hq, if_pos hq, state_solve_getD s r hr d]
  · rw [if_neg hq, if_neg hq]

/-! ### Congruence helpers: every read of a message buffer is edge-guarded -/

lemma calc_message_v_to_c_congr (t1 t2 : State) (hnv : t1.n_v = t2.n_v)
    (hmat : t1.matrix = t2.matrix) (m1 m2 : ℕ → ℕ → ℝ)
    (hm : ∀ c i, i < t1.n_v → t1.matrix c i ≠ 0 → m1 c i = m2 c i) (v c : ℕ) :
    calc_message_v_to_c t1 m1 v c = calc_message_v_to_c t2 m2 v c := by
  simp only [calc_message_v_to_c, ← hnv, ← hmat]
  refine congrArg Real.log (congrArg₂ _ (congrArg₂ _ rfl ?_) (congrArg₂ _ rfl ?_)) <;>
  · refine Finset.prod_congr rfl fun i hi => ?_
    by_cases hp : i ≠ v ∧ t1.matrix c i ≠ 0
    · rw [if_pos hp, if_pos hp, hm c i (Finset.mem_range.mp hi) hp.2]
    · rw [if_neg hp, if_neg hp]

lemma calc_message_c_to_v_congr (t1 t2 : State) (hnc : t1.n_c = t2.n_c)
    (hmat : t1.matrix = t2.matrix) (m1 m2 : ℕ → ℕ → ℝ) (v c : ℕ)
    (hllr : t1.channel_llr v = t2.channel_llr v)
    (hm : ∀ i, i < t1.n_c → t1.matrix i v ≠ 0 → m1 i v = m2 i v) :
    calc_message_c_to_v t1 m1 v c = calc_message_c_to_v t2 m2 v c := by
  simp only [calc_message_c_to_v, ← hnc, ← hmat, hllr]
  refine congrArg₂ _ rfl (Finset.sum_congr rfl fun i hi => ?_)
  by_cases hp : i ≠ c ∧ t1.matrix i v = 1
  · rw [if_pos hp, if_pos hp, hm i (Finset.mem_range.mp hi) (by rw [hp.2]; norm_num)]
  · rw [if_neg hp, if_neg hp]

lemma solve_loop_one (s : State) (m : ℕ → ℕ → ℝ) :
    solve_loop s m 1 = [mk_iteration s m] := by
  rw [solve_loop, if_pos rfl]

lemma solve_loop_cons (s : State) (m : ℕ → ℕ → ℝ) (n : ℕ) (hn : n ≠ 0) :
    solve_loop s m (n + 1) = mk_iteration s m ::
      solve_loop s (fun c v => calc_message_c_to_v s (mk_iteration s m).message_v_to_c v c) n := by
  rw [solve_loop, if_neg hn]

lemma foldl_parity_congr (mat : ℕ → ℕ → ℕ) (c : ℕ) (f g : ℕ → ℕ) :
    ∀ (l : List ℕ), (∀ v ∈ l, f v = g v) → ∀ a : ℕ,
      List.foldl (fun a v => if mat c v ≠ 0 then a ^^^ f v else a) a l =
      List.foldl (fun a v => if mat c v ≠ 0 then a ^^^ g v else a) a l := by
  intro l
  induction l with
  | nil => intro _ a; rfl
  | cons x xs ih =>
    intro h a
    simp only [List.foldl_cons]
    rw [h x (by simp)]
    exact ih (fun v hv => h v (by simp [hv])) _

lemma round_mcv_congr (t1 t2 : State) (hnv : t1.n_v = t2.n_v) (hnc : t1.n_c = t2.n_c)
    (hmat : t1.matrix = t2.matrix)
    (hllr : ∀ v, v < t1.n_v → t1.channel_llr v = t2.channel_llr v) :
    ∀ r c v, v < t1.n_v → round_mcv t1 r c v = round_mcv t2 r c v := by
  intro r
  induction r with
  | zero => exact fun c v hv => hllr v hv
  | succ r ih =>
    intro c v hv
    simp only [round_mcv]
    refine calc_message_c_to_v_congr t1 t2 hnc hmat _ _ v c (hllr v hv) fun i hi _ => ?_
    exact calc_message_v_to_c_congr t1 t2 hnv hmat _ _
      (fun c2 i2 hi2 _ => ih c2 i2 hi2) v i

lemma mk_iteration_congr (t1 t2 : State) (hnv : t1.n_v = t2.n_v) (hnc : t1.n_c = t2.n_c)
    (hmat : t1.matrix = t2.matrix) (m1 m2 : ℕ → ℕ → ℝ)
    (hm : ∀ c i, i < t1.n_v → t1.matrix c i ≠ 0 → m1 c i = m2 c i) :
    (mk_iteration t1 m1).message_v_to_c = (mk_iteration t2 m2).message_v_to_c ∧
    (∀ v, v < t1.n_v → t1.channel_llr v = t2.channel_llr v →
      (mk_iteration t1 m1).l v = (mk_iteration t2 m2).l v ∧
      (mk_iteration t1 m1).codeword v = (mk_iteration t2 m2).codeword v) := by
  have hmvc : (mk_iteration t1 m1).message_v_to_c = (mk_iteration t2 m2).message_v_to_c := by
    funext c v
    exact calc_message_v_to_c_congr t1 t2 hnv hmat m1 m2 hm v c
  refine ⟨hmvc, fun v hv hllr => ?_⟩
  have hl : (mk_iteration t1 m1).l v = (mk_iteration t2 m2).l v := by
    simp only [mk_iteration_l, ← hnc, ← hmat, hllr]
    refine congrArg₂ _ rfl (Finset.sum_congr rfl fun i hi => ?_)
    by_cases hp : t1.matrix i v ≠ 0
    · rw [if_pos hp, if_pos hp,
        calc_message_v_to_c_congr t1 t2 hnv hmat m1 m2 hm v i]
    · rw [if_neg hp, if_neg hp]
  refine ⟨hl, ?_⟩
  show (if (mk_iteration t1 m1).l v < 0 then (1:ℕ) else 0) =
    (if (mk_iteration t2 m2).l v < 0 then 1 else 0)
  rw [hl]

/-! ### C6: decoding is deterministic -/

/-- C6: for a fixed parity-check graph, fixed channel priors and fixed
round count, two runs of `state_solve` produce identical histories: every
message, belief, codeword bit and syndrome entry of every round's snapshot
agrees between the two runs (the states may otherwise differ, e.g. in
cursor position or leftover uninitialized memory). -/
theorem decode_deterministic (s1 s2 : State)
    (hnv : s1.n_v = s2.n_v) (hnc : s1.n_c = s2.n_c) (hmat : s1.matrix = s2.matrix)
    (hch : s1.channel = s2.channel) (hlen : s1.history.length = s2.history.length)
    (r : ℕ) (hr : r < s1.history.length) (d1 d2 : Snapshot) :
    (∀ c v, v < s1.n_v →
      ((state_solve s1).history.getD r d1).message_v_to_c c v =
        ((state_solve s2).history.getD r d2).message_v_to_c c v ∧
      ((state_solve s1).history.getD r d1).message_c_to_v c v =
        ((state_solve s2).history.getD r d2).message_c_to_v c v) ∧
    (∀ v, v < s1.n_v →
      ((state_solve s1).history.getD r d1).l v =
        ((state_solve s2).history.getD r d2).l v ∧
      ((state_solve s1).history.getD r d1).codeword v =
        ((state_solve s2).history.getD r d2).codeword v) ∧
    (∀ c, ((state_solve s1).history.getD r d1).parity c =
      ((state_solve s2).history.getD r d2).parity c) := by
  rw [state_solve_getD s1 r hr d1, state_solve_getD s2 r (hlen ▸ hr) d2]
  set t1 : State := { s1 with channel_llr := post_llr s1 } with ht1
  set t2 : State := { s2 with channel_llr := post_llr s2 } with ht2
  have hnv2 : t1.n_v = t2.n_v := hnv
  have hnc2 : t1.n_c = t2.n_c := hnc
  have hmat2 : t1.matrix = t2.matrix := hmat
  have hllr : ∀ v, v < t1.n_v → t1.channel_llr v = t2.channel_llr v := by
    intro v hv
    show post_llr s1 v = post_llr s2 v
    simp only [post_llr]
    rw [if_pos hv, if_pos (hnv ▸ hv), hch]
  have hmcv : ∀ c v, v < t1.n_v → round_mcv t1 r c v = round_mcv t2 r c v :=
    round_mcv_congr t1 t2 hnv2 hnc2 hmat2 hllr r
  have hmk := mk_iteration_congr t1 t2 hnv2 hnc2 hmat2 (round_mcv t1 r) (round_mcv t2 r)
    (fun c i hi _ => hmcv c i hi)
  refine ⟨fun c v hv => ⟨?_, ?_⟩, fun v hv => hmk.2 v hv (hllr v hv), fun c => ?_⟩
  · rw [show (round_snapshot t1 r).message_v_to_c = (mk_iteration t1 (round_mcv t1 r)).message_v_to_c from rfl,
      show (round_snapshot t2 r).message_v_to_c = (mk_iteration t2 (round_mcv t2 r)).message_v_to_c from rfl,
      hmk.1]
  · exact hmcv c v hv
  · rw [show (round_snapshot t1 r).parity = (mk_iteration t1 (round_mcv t1 r)).parity from rfl,
      show (round_snapshot t2 r).parity = (mk_iteration t2 (round_mcv t2 r)).parity from rfl,
      mk_iteration_parity, mk_iteration_parity]
    simp only [← hnv, ← hmat]
    refine foldl_parity_congr s1.matrix c _ _ (List.range s1.n_v) ?_ 0
    intro v hv
    exact (hmk.2 v (List.mem_range.mp hv) (hllr v (List.mem_range.mp hv))).2

/-! ### C7: the decoder fills every round, with no early exit -/

/-- C7: `state_solve` terminates (it is a total function) and fills exactly
one snapshot per preallocated round, in order: the history keeps its
length (`state_new n` preallocates `n` rounds), and round `r`'s snapshot
is the `r`-th iterate `round_snapshot r` — a closed form independent of
any syndrome value, so every round is computed even when an earlier
round's syndrome is already all-zero (there is no convergence test and no
early exit). -/
theorem decode_fills_all_rounds (s : State) :
    (state_solve s).history.length = s.history.length ∧
    (∀ n : ℕ, (state_new n).history.length = n) ∧
    (∀ r, r < s.history.length → ∀ d,
      (state_solve s).history.getD r d =
        round_snapshot { s with channel_llr := post_llr s } r) := by
  refine ⟨?_, ?_, fun r hr d => state_solve_getD s r hr d⟩
  · rw [state_solve_history]
    simp
  · intro n
    simp [state_new]

/-! ### C9: decoding never writes the priors or the graph -/

/-- C9: `state_solve` returns with the channel priors and the parity-check
matrix (and all other non-derived fields) unchanged — it writes only the
derived `channel_llr` and the round snapshots; and of all key handlers,
only the two nudge keys (KEY_UP / KEY_DOWN) change a channel prior. -/
theorem solve_frame (s : State) :
    (state_solve s).channel = s.channel ∧
    (state_solve s).matrix = s.matrix ∧
    (state_solve s).n_v = s.n_v ∧
    (state_solve s).n_c = s.n_c ∧
    (state_solve s).cursor = s.cursor ∧
    (state_solve s).page = s.page ∧
    (state_solve s).iterations = s.iterations ∧
    (∀ k : Key, k ≠ Key.up → k ≠ Key.down →
      ((process_keys k s).1).channel = s.channel) := by
  refine ⟨rfl, rfl, rfl, rfl, rfl, rfl, rfl, fun k hu hd => ?_⟩
  cases k with
  | esc => rfl
  | keyQ => rfl
  | ppage =>
    show (if 0 < s.page then { s with page := s.page - 1 } else s).channel = s.channel
    split <;> rfl
  | npage =>
    show (if s.page < (s.iterations : ℤ) - 1 then { s with page := s.page + 1 } else s).channel
      = s.channel
    split <;> rfl
  | left => rfl
  | right => rfl
  | up => exact absurd rfl hu
  | down => exact absurd rfl hd
  | other => rfl

/-! ### C8: the nudge operation snaps, steps and clamps -/

/-- C8: for every prior value in the unit interval (the range a prior can
take), the nudge updates first floor-snap to the 0.01 grid, then step by
0.01 in the requested direction, clamped to `[0.01, 0.99]` (in the source
the KEY_DOWN handler increases the prior and KEY_UP decreases it); in
particular nudging up from 0.99 stays at 0.99, nudging down from 0.01
stays at 0.01, and 0.567 nudged up becomes 0.57, not 0.577. -/
theorem nudge_rule (p : ℝ) (h0 : 0 ≤ p) (h1 : p ≤ 1) :
    (key_down_prior p = max 0.01 (min 0.99 ((⌊p * 100⌋ : ℝ) / 100 + 0.01)) ∧
     key_up_prior p = max 0.01 (min 0.99 ((⌊p * 100⌋ : ℝ) / 100 - 0.01))) ∧
    key_down_prior 0.99 = 0.99 ∧ key_up_prior 0.01 = 0.01 ∧
    key_down_prior 0.567 = 0.57 := by
  have hk0 : (0 : ℤ) ≤ ⌊p * 100⌋ := Int.floor_nonneg.mpr (by positivity)
  have hk1 : ⌊p * 100⌋ ≤ 100 := by
    have : p * 100 ≤ 100 := by nlinarith
    calc ⌊p * 100⌋ ≤ ⌊(100 : ℝ)⌋ := Int.floor_le_floor this
    _ = 100 := by norm_num
  constructor
  · constructor
    · rw [key_down_prior]
      by_cases hlt : ((⌊p * 100⌋ : ℝ) / 100 : ℝ) < 0.99
      · rw [if_pos hlt]
        have hle : (⌊p * 100⌋ : ℝ) / 100 + 0.01 ≤ 0.99 := by
          have : (⌊p * 100⌋ : ℤ) ≤ 98 := by
            by_contra hcon
            push_neg at hcon
            have : (99 : ℝ) ≤ (⌊p * 100⌋ : ℝ) := by exact_mod_cast hcon
            nlinarith
          have : ((⌊p * 100⌋ : ℝ)) ≤ 98 := by exact_mod_cast this
          nlinarith
        have hge : (0.01 : ℝ) ≤ (⌊p * 100⌋ : ℝ) / 100 + 0.01 := by
          have : (0 : ℝ) ≤ (⌊p * 100⌋ : ℝ) := by exact_mod_cast hk0
          nlinarith
        rw [min_eq_right hle, max_eq_right hge]
      · rw [if_neg hlt]
        push_neg at hlt
        have : (0.99 : ℝ) ≤ (⌊p * 100⌋ : ℝ) / 100 + 0.01 := by nlinarith
        rw [min_eq_left this, max_eq_right (by norm_num)]
    · rw [key_up_prior]
      by_cases hgt : ((⌊p * 100⌋ : ℝ) / 100 : ℝ) > 0.01
      · rw [if_pos hgt]
        have hle : (⌊p * 100⌋ : ℝ) / 100 - 0.01 ≤ 0.99 := by
          have : ((⌊p * 100⌋ : ℝ)) ≤ 100 := by exact_mod_cast hk1
          nlinarith
        have hge : (0.01 : ℝ) ≤ (⌊p * 100⌋ : ℝ) / 100 - 0.01 := by
          have h2 : (2 : ℤ) ≤ ⌊p * 100⌋ := by
            by_contra hcon
            push_neg at hcon
            have : (⌊p * 100⌋ : ℝ) ≤ 1 := by
              have : (⌊p * 100⌋ : ℤ) ≤ 1 := by omega
              exact_mod_cast this
            nlinarith
          have : (2 : ℝ) ≤ (⌊p * 100⌋ : ℝ) := by exact_mod_cast h2
          nlinarith
        rw [min_eq_right hle, max_eq_right hge]
      · rw [if_neg hgt]
        push_neg at hgt
        have : (⌊p * 100⌋ : ℝ) / 100 - 0.01 ≤ 0.01 := by nlinarith
        rw [min_eq_right (by nlinarith : (⌊p * 100⌋ : ℝ) / 100 - 0.01 ≤ (0.99:ℝ)),
          max_eq_left this]
  · have h99 : (⌊(0.99 : ℝ) * 100⌋ : ℤ) = 99 := by
      rw [show (0.99 : ℝ) * 100 = 99 by norm_num]
      rw [show (99 : ℝ) = ((99 : ℤ) : ℝ) by norm_num, Int.floor_intCast]
    have h01 : (⌊(0.01 : ℝ) * 100⌋ : ℤ) = 1 := by
      rw [show (0.01 : ℝ) * 100 = 1 by norm_num]
      rw [show (1 : ℝ) = ((1 : ℤ) : ℝ) by norm_num, Int.floor_intCast]
    have h567 : (⌊(0.567 : ℝ) * 100⌋ : ℤ) = 56 := by
      rw [show (0.567 : ℝ) * 100 = 56.7 by norm_num]
      rw [Int.floor_eq_iff]
      norm_num
    refine ⟨?_, ?_, ?_⟩
    · rw [key_down_prior, h99]
      rw [if_neg (by norm_num)]
    · rw [key_up_prior, h01]
      rw [if_neg (by norm_num)]
    · rw [key_down_prior, h567]
      rw [if_pos (by norm_num)]
      norm_num

/-! ### C10: non-edge buffer positions never influence the result -/

/-- C10: every read of the message buffers during decoding is guarded by a
matrix test, so values held at non-edge positions (`matrix[c][v] = 0`) are
inert — even though the engine writes such positions (e.g. the round-0
seeding stores `llr_of(v)` into every `(c,v)` slot).  For two incoming
buffers that agree on all edge positions: every check message agrees, the
prepared variable messages agree for any two check-message buffers that
agree on edges, beliefs, codeword bits and syndrome entries agree, and the
whole remaining run from those seeds agrees (edge messages, beliefs,
codewords and syndromes of every round). -/
theorem nonedge_positions_inert (s : State) (m1 m2 : ℕ → ℕ → ℝ)
    (hagree : ∀ c v, s.matrix c v ≠ 0 → m1 c v = m2 c v) :
    (∀ v c, calc_message_v_to_c s m1 v c = calc_message_v_to_c s m2 v c) ∧
    (∀ t1 t2 : ℕ → ℕ → ℝ, (∀ c v, s.matrix c v ≠ 0 → t1 c v = t2 c v) →
      ∀ v c, calc_message_c_to_v s t1 v c = calc_message_c_to_v s t2 v c) ∧
    (∀ v, (mk_iteration s m1).l v = (mk_iteration s m2).l v) ∧
    (∀ v, (mk_iteration s m1).codeword v = (mk_iteration s m2).codeword v) ∧
    (∀ c, (mk_iteration s m1).parity c = (mk_iteration s m2).parity c) ∧
    (∀ n r d, r < n →
      ((solve_loop s m1 n).getD r d).message_v_to_c =
        ((solve_loop s m2 n).getD r d).message_v_to_c ∧
      ((solve_loop s m1 n).getD r d).l = ((solve_loop s m2 n).getD r d).l ∧
      ((solve_loop s m1 n).getD r d).codeword = ((solve_loop s m2 n).getD r d).codeword ∧
      ((solve_loop s m1 n).getD r d).parity = ((solve_loop s m2 n).getD r d).parity ∧
      (∀ c v, s.matrix c v ≠ 0 →
        ((solve_loop s m1 n).getD r d).message_c_to_v c v =
          ((solve_loop s m2 n).getD r d).message_c_to_v c v)) := by
  have hvc : ∀ v c, calc_message_v_to_c s m1 v c = calc_message_v_to_c s m2 v c :=
    fun v c => calc_message_v_to_c_congr s s rfl rfl m1 m2 (fun c2 i _ h => hagree c2 i h) v c
  have hcv : ∀ t1 t2 : ℕ → ℕ → ℝ, (∀ c v, s.matrix c v ≠ 0 → t1 c v = t2 c v) →
      ∀ v c, calc_message_c_to_v s t1 v c = calc_message_c_to_v s t2 v c :=
    fun t1 t2 ht v c => calc_message_c_to_v_congr s s rfl rfl t1 t2 v c rfl
      (fun i _ h => ht i v h)
  have hmvc : (mk_iteration s m1).message_v_to_c = (mk_iteration s m2).message_v_to_c := by
    funext c v
    exact hvc v c
  have hl : ∀ v, (mk_iteration s m1).l v = (mk_iteration s m2).l v := by
    intro v
    simp only [mk_iteration_l]
    refine congrArg₂ _ rfl (Finset.sum_congr rfl fun i _ => ?_)
    by_cases hp : s.matrix i v ≠ 0
    · rw [if_pos hp, if_pos hp, hvc v i]
    · rw [if_neg hp, if_neg hp]
  have hcw : ∀ v, (mk_iteration s m1).codeword v = (mk_iteration s m2).codeword v := by
    intro v
    show (if (mk_iteration s m1).l v < 0 then (1:ℕ) else 0) =
      (if (mk_iteration s m2).l v < 0 then 1 else 0)
    rw [hl v]
  have hpar : ∀ c, (mk_iteration s m1).parity c = (mk_iteration s m2).parity c := by
    intro c
    rw [mk_iteration_parity, mk_iteration_parity]
    exact foldl_parity_congr s.matrix c _ _ (List.range s.n_v) (fun v _ => hcw v) 0
  refine ⟨hvc, hcv, hl, hcw, hpar, ?_⟩
  intro n r d hr
  rcases n with _ | n2
  · omega
  rcases n2 with _ | n3
  · rw [solve_loop_one, solve_loop_one]
    have hr0 : r = 0 := by omega
    subst hr0
    exact ⟨hmvc, funext hl, funext hcw, funext hpar, fun c v h => hagree c v h⟩
  · rw [solve_loop_cons s m1 (n3 + 1) (by omega), solve_loop_cons s m2 (n3 + 1) (by omega),
      hmvc]
    rcases r with _ | r2
    · simp only [List.getD_cons_zero]
      exact ⟨hmvc, funext hl, funext hcw, funext hpar, fun c v h => hagree c v h⟩
    · simp only [List.getD_cons_succ]
      simp

/-! ### Witnesses: the claim theorems applied at concrete inputs -/

lemma state_new_len : (state_new 8).history.length = 8 := by
  simp [state_new]

lemma state_new_nc : (state_new 8).n_c = 4 := by
  simp [state_new, matrix]

lemma state_new_nv : (state_new 8).n_v = 6 := by
  simp [state_new, matrix]

lemma state_new_mat00 : (state_new 8).matrix 0 0 = 1 := by
  simp [state_new, matrix]

theorem check_message_rule_witness :
    0 < (state_new 8).history.length ∧ (state_new 8).matrix 0 0 = 1 ∧
    (((state_solve (state_new 8)).history.getD 0 emptySnapshot).message_v_to_c 0 0 =
      (let inc : ℕ → ℝ := fun w =>
        if (0 : ℕ) = 0 then p_to_l ((state_new 8).channel w)
        else p_to_l ((state_new 8).channel w) +
          ∑ c2 ∈ (Finset.range (state_new 8).n_c).filter
              (fun c2 => c2 ≠ 0 ∧ (state_new 8).matrix c2 w = 1),
            ((state_solve (state_new 8)).history.getD (0 - 1) emptySnapshot).message_v_to_c c2 w
      let t : ℝ :=
        ∏ w ∈ (Finset.range (state_new 8).n_v).filter
            (fun w => w ≠ 0 ∧ (state_new 8).matrix 0 w ≠ 0),
          Real.tanh (inc w / 2)
      Real.log ((1 + t) / (1 - t)))) :=
  ⟨by rw [state_new_len]; norm_num, state_new_mat00,
   check_message_rule (state_new 8) 0 0 0 emptySnapshot
     (by rw [state_new_len]; norm_num) (by rw [state_new_nc]; norm_num)
     (by rw [state_new_nv]; norm_num) state_new_mat00⟩

theorem variable_message_rule_witness :
    0 + 1 < (state_new 8).history.length ∧ (state_new 8).matrix 0 0 = 1 ∧
    (((state_solve (state_new 8)).history.getD (0 + 1) emptySnapshot).message_c_to_v 0 0 =
      p_to_l ((state_new 8).channel 0) +
        ∑ c2 ∈ (Finset.range (state_new 8).n_c).filter
            (fun c2 => c2 ≠ 0 ∧ (state_new 8).matrix c2 0 = 1),
          ((state_solve (state_new 8)).history.getD 0 emptySnapshot).message_v_to_c c2 0 ∧
    (state_solve (state_new 8)).history.length = (state_new 8).history.length) :=
  ⟨by rw [state_new_len]; norm_num, state_new_mat00,
   variable_message_rule (state_new 8) 0 0 0 emptySnapshot
     (by rw [state_new_len]; norm_num) (by rw [state_new_nc]; norm_num)
     (by rw [state_new_nv]; norm_num) state_new_mat00⟩

theorem belief_rule_witness :
    0 < (state_new 8).history.length ∧ 0 < (state_new 8).n_v ∧
    (((state_solve (state_new 8)).history.getD 0 emptySnapshot).l 0 =
      p_to_l ((state_new 8).channel 0) +
        ∑ c2 ∈ (Finset.range (state_new 8).n_c).filter
            (fun c2 => (state_new 8).matrix c2 0 ≠ 0),
          ((state_solve (state_new 8)).history.getD 0 emptySnapshot).message_v_to_c c2 0 ∧
    ((state_solve (state_new 8)).history.getD 0 emptySnapshot).codeword 0 =
      if ((state_solve (state_new 8)).history.getD 0 emptySnapshot).l 0 < 0 then 1 else 0) :=
  ⟨by rw [state_new_len]; norm_num, by rw [state_new_nv]; norm_num,
   belief_rule (state_new 8) 0 0 emptySnapshot
     (by rw [state_new_len]; norm_num) (by rw [state_new_nv]; norm_num)⟩

theorem syndrome_rule_witness :
    0 < (state_new 8).history.length ∧ 0 < (state_new 8).n_c ∧
    (((state_solve (state_new 8)).history.getD 0 emptySnapshot).parity 0 =
      (∑ v ∈ (Finset.range (state_new 8).n_v).filter
          (fun v => (state_new 8).matrix 0 v ≠ 0),
        ((state_solve (state_new 8)).history.getD 0 emptySnapshot).codeword v) % 2 ∧
    (display_valid (state_new 8).n_c
        ((state_solve (state_new 8)).history.getD 0 emptySnapshot).parity = true ↔
      ∀ c2, c2 < (state_new 8).n_c →
        ((state_solve (state_new 8)).history.getD 0 emptySnapshot).parity c2 = 0)) :=
  ⟨by rw [state_new_len]; norm_num, by rw [state_new_nc]; norm_num,
   syndrome_rule (state_new 8) 0 0 emptySnapshot
     (by rw [state_new_len]; norm_num) (by rw [state_new_nc]; norm_num)⟩

theorem decode_deterministic_witness :
    ((∀ c v, v < (state_new 8).n_v →
      ((state_solve (state_new 8)).history.getD 0 emptySnapshot).message_v_to_c c v =
        ((state_solve (state_new 8)).history.getD 0 emptySnapshot).message_v_to_c c v ∧
      ((state_solve (state_new 8)).history.getD 0 emptySnapshot).message_c_to_v c v =
        ((state_solve (state_new 8)).history.getD 0 emptySnapshot).message_c_to_v c v) ∧
    (∀ v, v < (state_new 8).n_v →
      ((state_solve (state_new 8)).history.getD 0 emptySnapshot).l v =
        ((state_solve (state_new 8)).history.getD 0 emptySnapshot).l v ∧
      ((state_solve (state_new 8)).history.getD 0 emptySnapshot).codeword v =
        ((state_solve (state_new 8)).history.getD 0 emptySnapshot).codeword v) ∧
    (∀ c, ((state_solve (state_new 8)).history.getD 0 emptySnapshot).parity c =
      ((state_solve (state_new 8)).history.getD 0 emptySnapshot).parity c)) :=
  decode_deterministic (state_new 8) (state_new 8) rfl rfl rfl rfl rfl 0
    (by rw [state_new_len]; norm_num) emptySnapshot emptySnapshot

theorem decode_fills_all_rounds_witness :
    0 < (state_new 8).history.length ∧
    (state_solve (state_new 8)).history.getD 0 emptySnapshot =
      round_snapshot { state_new 8 with channel_llr := post_llr (state_new 8) } 0 :=
  ⟨by rw [state_new_len]; norm_num,
   (decode_fills_all_rounds (state_new 8)).2.2 0
     (by rw [state_new_len]; norm_num) emptySnapshot⟩

theorem solve_frame_witness :
    (state_solve (state_new 8)).channel = (state_new 8).channel ∧
    ((process_keys Key.esc (state_new 8)).1).channel = (state_new 8).channel :=
  ⟨(solve_frame (state_new 8)).1,
   (solve_frame (state_new 8)).2.2.2.2.2.2.2 Key.esc
     (fun h => Key.noConfusion h) (fun h => Key.noConfusion h)⟩

theorem nudge_rule_witness :
    (0 : ℝ) ≤ 0.567 ∧ (0.567 : ℝ) ≤ 1 ∧
    ((key_down_prior 0.567 = max 0.01 (min 0.99 ((⌊(0.567 : ℝ) * 100⌋ : ℝ) / 100 + 0.01)) ∧
      key_up_prior 0.567 = max 0.01 (min 0.99 ((⌊(0.567 : ℝ) * 100⌋ : ℝ) / 100 - 0.01))) ∧
     key_down_prior 0.99 = 0.99 ∧ key_up_prior 0.01 = 0.01 ∧
     key_down_prior 0.567 = 0.57) :=
  ⟨by norm_num, by norm_num, nudge_rule 0.567 (by norm_num) (by norm_num)⟩

theorem nonedge_positions_inert_witness :
    calc_message_v_to_c (state_new 8) (fun _ _ => 0) 0 0 =
      calc_message_v_to_c (state_new 8)
        (fun c v => if (state_new 8).matrix c v ≠ 0 then 0 else 1) 0 0 :=
  (nonedge_positions_inert (state_new 8) (fun _ _ => 0)
    (fun c v => if (state_new 8).matrix c v ≠ 0 then 0 else 1)
    (fun c v h => (if_pos h).symm)).1 0 0

/-! ### C5, part 1: tanh algebra -/

lemma tanh_eq_exp (x : ℝ) :
    Real.tanh x = (Real.exp (2 * x) - 1) / (Real.exp (2 * x) + 1) := by
  rw [Real.tanh_eq_sinh_div_cosh, Real.sinh_eq, Real.cosh_eq, Real.exp_neg]
  have hy := Real.exp_pos x
  have h2 : Real.exp (2 * x) = Real.exp x * Real.exp x := by
    rw [two_mul, Real.exp_add]
  rw [h2, div_div_div_cancel_right₀ (show (2:ℝ) ≠ 0 by norm_num)]
  rw [div_eq_div_iff (by positivity) (by positivity)]
  field_simp

lemma tanh_half_exp (x : ℝ) :
    Real.tanh (x / 2) = (Real.exp x - 1) / (Real.exp x + 1) := by
  have h := tanh_eq_exp (x / 2)
  rwa [show 2 * (x / 2) = x by ring] at h

lemma tanh_bounds (x : ℝ) : -1 < Real.tanh x ∧ Real.tanh x < 1 := by
  rw [tanh_eq_exp]
  have hy := Real.exp_pos (2 * x)
  constructor
  · rw [lt_div_iff (by linarith)]
    linarith
  · rw [div_lt_one (by linarith)]
    linarith

lemma tanh_neg_iff (x : ℝ) : Real.tanh x < 0 ↔ x < 0 := by
  rw [Real.tanh_eq_sinh_div_cosh, div_neg_iff]
  constructor
  · rintro (⟨h1, h2⟩ | ⟨h1, h2⟩)
    · exact absurd h2 (not_lt.mpr (Real.cosh_pos x).le)
    · exact Real.sinh_neg_iff.mp h1
  · intro h
    exact Or.inr ⟨Real.sinh_neg_iff.mpr h, Real.cosh_pos x⟩

lemma tanh_pos_iff (x : ℝ) : 0 < Real.tanh x ↔ 0 < x := by
  rw [Real.tanh_eq_sinh_div_cosh, div_pos_iff]
  constructor
  · rintro (⟨h1, h2⟩ | ⟨h1, h2⟩)
    · exact Real.sinh_pos_iff.mp h1
    · exact absurd h2 (not_lt.mpr (Real.cosh_pos x).le)
  · intro h
    exact Or.inl ⟨Real.sinh_pos_iff.mpr h, Real.cosh_pos x⟩

lemma tanh_log_ratio (t : ℝ) (h1 : -1 < t) (h2 : t < 1) :
    Real.tanh (Real.log ((1 + t) / (1 - t)) / 2) = t := by
  have ha : (0:ℝ) < 1 + t := by linarith
  have hb : (0:ℝ) < 1 - t := by linarith
  rw [tanh_half_exp, Real.exp_log (div_pos ha hb)]
  rw [div_sub_one hb.ne', div_add_one hb.ne', div_div_div_cancel_right₀ hb.ne']
  rw [show 1 + t - (1 - t) = 2 * t by ring, show 1 + t + (1 - t) = 2 by ring]
  ring

lemma tanh_add_mob (a b : ℝ) :
    mob (Real.tanh a) (Real.tanh b) = Real.tanh (a + b) := by
  have hca := (Real.cosh_pos a).ne'
  have hcb := (Real.cosh_pos b).ne'
  have hcab := (Real.cosh_pos (a + b)).ne'
  have hnum : Real.sinh a / Real.cosh a + Real.sinh b / Real.cosh b =
      Real.sinh (a + b) / (Real.cosh a * Real.cosh b) := by
    rw [Real.sinh_add]
    field_simp
    ring
  have hden : 1 + Real.sinh a / Real.cosh a * (Real.sinh b / Real.cosh b) =
      Real.cosh (a + b) / (Real.cosh a * Real.cosh b) := by
    rw [Real.cosh_add]
    field_simp
  rw [mob, Real.tanh_eq_sinh_div_cosh, Real.tanh_eq_sinh_div_cosh,
    Real.tanh_eq_sinh_div_cosh, hnum, hden,
    div_div_div_cancel_right₀ (show (Real.cosh a * Real.cosh b) ≠ 0 by positivity)]

lemma tanh_half_add (x y : ℝ) :
    Real.tanh ((x + y) / 2) = mob (Real.tanh (x / 2)) (Real.tanh (y / 2)) := by
  rw [tanh_add_mob, show x / 2 + y / 2 = (x + y) / 2 by ring]

lemma one_add_mul_pos_lo (a b : ℝ) (ha0 : -1 ≤ a) (ha1 : a < 1) (hb0 : -1 ≤ b) (hb1 : b < 1) :
    0 < 1 + a * b := by
  nlinarith [mul_pos (sub_pos.mpr ha1) (sub_pos.mpr hb1),
    mul_nonneg (by linarith : (0:ℝ) ≤ 1 + a) (by linarith : (0:ℝ) ≤ 1 + b)]

lemma one_add_mul_pos_hi (a b : ℝ) (ha0 : -1 < a) (ha1 : a ≤ 1) (hb0 : -1 < b) (hb1 : b ≤ 1) :
    0 < 1 + a * b := by
  nlinarith [mul_pos (by linarith : (0:ℝ) < 1 + a) (by linarith : (0:ℝ) < 1 + b),
    mul_nonneg (by linarith : (0:ℝ) ≤ 1 - a) (by linarith : (0:ℝ) ≤ 1 - b)]

lemma mob_mem (u v : ℝ) (hu1 : -1 < u) (hu2 : u < 1) (hv1 : -1 < v) (hv2 : v < 1) :
    -1 < mob u v ∧ mob u v < 1 := by
  have hd : 0 < 1 + u * v := one_add_mul_pos_lo u v hu1.le hu2 hv1.le hv2
  constructor
  · rw [mob, lt_div_iff hd]
    nlinarith [mul_pos (by linarith : (0:ℝ) < 1 + u) (by linarith : (0:ℝ) < 1 + v)]
  · rw [mob, div_lt_one hd]
    nlinarith [mul_pos (by linarith : (0:ℝ) < 1 - u) (by linarith : (0:ℝ) < 1 - v)]

lemma mob_comm (u v : ℝ) : mob u v = mob v u := by
  rw [mob, mob, add_comm u v, mul_comm u v]

lemma mob_mono_left (u1 u2 v : ℝ) (h : u1 ≤ u2) (hv1 : -1 ≤ v) (hv2 : v ≤ 1)
    (hd1 : 0 < 1 + u1 * v) (hd2 : 0 < 1 + u2 * v) : mob u1 v ≤ mob u2 v := by
  rw [mob, mob, div_le_div_iff hd1 hd2]
  nlinarith [mul_nonneg (mul_nonneg (sub_nonneg.mpr h) (by linarith : (0:ℝ) ≤ 1 - v))
    (by linarith : (0:ℝ) ≤ 1 + v)]

lemma mob_mono_right (u v1 v2 : ℝ) (h : v1 ≤ v2) (hu1 : -1 ≤ u) (hu2 : u ≤ 1)
    (hd1 : 0 < 1 + u * v1) (hd2 : 0 < 1 + u * v2) : mob u v1 ≤ mob u v2 := by
  rw [mob_comm u v1, mob_comm u v2]
  refine mob_mono_left v1 v2 u h hu1 hu2 ?_ ?_
  · rwa [mul_comm]
  · rwa [mul_comm]

/-! ### C5, part 2: the scaled-integer interval operations are enclosures -/

lemma sc_pos : (0 : ℤ) < sc := by norm_num [sc]

lemma sc_pos_real : (0 : ℝ) < (sc : ℝ) := by exact_mod_cast sc_pos

lemma int_div_le_div (a b : ℤ) (hb : 0 < b) : ((a / b : ℤ) : ℝ) ≤ (a : ℝ) / (b : ℝ) := by
  rw [le_div_iff (by exact_mod_cast hb : (0:ℝ) < (b:ℝ))]
  have h := Int.ediv_add_emod a b
  have h2 : 0 ≤ a % b := Int.emod_nonneg a hb.ne'
  have h3 : b * (a / b) ≤ a := by linarith
  have h4 : ((b * (a / b) : ℤ) : ℝ) ≤ (a : ℝ) := by exact_mod_cast h3
  push_cast at h4
  linarith

lemma int_cdiv_ge (a b : ℤ) (hb : 0 < b) : (a : ℝ) / (b : ℝ) ≤ ((cdiv a b : ℤ) : ℝ) := by
  have h := int_div_le_div (-a) b hb
  rw [cdiv]
  push_cast at h ⊢
  rw [neg_div] at h
  linarith

lemma mkIv_mem (x : ℝ) (l h : ℤ) (hl : (l : ℝ) ≤ x * (sc:ℝ) ^ 2) (hh : x * (sc:ℝ) ^ 2 ≤ (h : ℝ))
    (hx1 : -1 ≤ x) (hx2 : x ≤ 1) : memIv x (mkIv l h) := by
  constructor
  · show ((max (l / sc) (-sc) : ℤ) : ℝ) / (sc:ℝ) ≤ x
    rw [div_le_iff sc_pos_real]
    push_cast
    refine max_le ?_ ?_
    · have h1 : ((l / sc : ℤ) : ℝ) ≤ (l:ℝ) / (sc:ℝ) := int_div_le_div l sc sc_pos
      have h2 : (l:ℝ) / (sc:ℝ) ≤ x * (sc:ℝ) := by
        rw [div_le_iff sc_pos_real]
        nlinarith [sc_pos_real]
      linarith
    · nlinarith [sc_pos_real, mul_nonneg (by linarith : (0:ℝ) ≤ x + 1) sc_pos_real.le]
  · show x ≤ ((min (cdiv h sc) sc : ℤ) : ℝ) / (sc:ℝ)
    rw [le_div_iff sc_pos_real]
    push_cast
    refine le_min ?_ ?_
    · have h1 : (h:ℝ) / (sc:ℝ) ≤ ((cdiv h sc : ℤ) : ℝ) := int_cdiv_ge h sc sc_pos
      have h2 : x * (sc:ℝ) ≤ (h:ℝ) / (sc:ℝ) := by
        rw [le_div_iff sc_pos_real]
        nlinarith [sc_pos_real]
      linarith
    · nlinarith [sc_pos_real, mul_nonneg (by linarith : (0:ℝ) ≤ 1 - x) sc_pos_real.le]

lemma mul_bounds (a b c d x y : ℝ) (hax : a ≤ x) (hxb : x ≤ b) (hcy : c ≤ y) (hyd : y ≤ d) :
    min (min (a*c) (a*d)) (min (b*c) (b*d)) ≤ x*y ∧
    x*y ≤ max (max (a*c) (a*d)) (max (b*c) (b*d)) := by
  constructor
  · rcases le_total 0 y with hy | hy
    · have h1 : a * y ≤ x * y := mul_le_mul_of_nonneg_right hax hy
      rcases le_total 0 a with ha | ha
      · have h2 : a * c ≤ a * y := mul_le_mul_of_nonneg_left hcy ha
        have h3 : min (min (a*c) (a*d)) (min (b*c) (b*d)) ≤ a*c :=
          le_trans (min_le_left _ _) (min_le_left _ _)
        linarith
      · have h2 : a * d ≤ a * y := mul_le_mul_of_nonpos_left hyd ha
        have h3 : min (min (a*c) (a*d)) (min (b*c) (b*d)) ≤ a*d :=
          le_trans (min_le_left _ _) (min_le_right _ _)
        linarith
    · have h1 : b * y ≤ x * y := mul_le_mul_of_nonpos_right hxb hy
      rcases le_total 0 b with hb | hb
      · have h2 : b * c ≤ b * y := mul_le_mul_of_nonneg_left hcy hb
        have h3 : min (min (a*c) (a*d)) (min (b*c) (b*d)) ≤ b*c :=
          le_trans (min_le_right _ _) (min_le_left _ _)
        linarith
      · have h2 : b * d ≤ b * y := mul_le_mul_of_nonpos_left hyd hb
        have h3 : min (min (a*c) (a*d)) (min (b*c) (b*d)) ≤ b*d :=
          le_trans (min_le_right _ _) (min_le_right _ _)
        linarith
  · rcases le_total 0 y with hy | hy
    · have h1 : x * y ≤ b * y := mul_le_mul_of_nonneg_right hxb hy
      rcases le_total 0 b with hb | hb
      · have h2 : b * y ≤ b * d := mul_le_mul_of_nonneg_left hyd hb
        have h3 : b*d ≤ max (max (a*c) (a*d)) (max (b*c) (b*d)) :=
          le_trans (le_max_right _ _) (le_max_right _ _)
        linarith
      · have h2 : b * y ≤ b * c := mul_le_mul_of_nonpos_left hcy hb
        have h3 : b*c ≤ max (max (a*c) (a*d)) (max (b*c) (b*d)) :=
          le_trans (le_max_left _ _) (le_max_right _ _)
        linarith
    · have h1 : x * y ≤ a * y := mul_le_mul_of_nonpos_right hax hy
      rcases le_total 0 a with ha | ha
      · have h2 : a * y ≤ a * d := mul_le_mul_of_nonneg_left hyd ha
        have h3 : a*d ≤ max (max (a*c) (a*d)) (max (b*c) (b*d)) :=
          le_trans (le_max_right _ _) (le_max_left _ _)
        linarith
      · have h2 : a * y ≤ a * c := mul_le_mul_of_nonpos_left hcy ha
        have h3 : a*c ≤ max (max (a*c) (a*d)) (max (b*c) (b*d)) :=
          le_trans (le_max_left _ _) (le_max_left _ _)
        linarith

lemma imul_mem (x y : ℝ) (A B : Iv) (hx : memIv x A) (hy : memIv y B)
    (hx1 : -1 ≤ x) (hx2 : x ≤ 1) (hy1 : -1 ≤ y) (hy2 : y ≤ 1) :
    memIv (x * y) (imul A B) := by
  obtain ⟨hxl, hxh⟩ := hx
  obtain ⟨hyl, hyh⟩ := hy
  have hxl2 : (A.lo : ℝ) ≤ x * (sc:ℝ) := by rw [div_le_iff sc_pos_real] at hxl; linarith
  have hxh2 : x * (sc:ℝ) ≤ (A.hi : ℝ) := by rw [le_div_iff sc_pos_real] at hxh; linarith
  have hyl2 : (B.lo : ℝ) ≤ y * (sc:ℝ) := by rw [div_le_iff sc_pos_real] at hyl; linarith
  have hyh2 : y * (sc:ℝ) ≤ (B.hi : ℝ) := by rw [le_div_iff sc_pos_real] at hyh; linarith
  have hb := mul_bounds (A.lo:ℝ) (A.hi:ℝ) (B.lo:ℝ) (B.hi:ℝ) (x * sc) (y * sc)
    hxl2 hxh2 hyl2 hyh2
  refine mkIv_mem (x*y) _ _ ?_ ?_ ?_ ?_
  · push_cast
    calc ((min (min ((A.lo:ℝ)*(B.lo:ℝ)) ((A.lo:ℝ)*(B.hi:ℝ)))
        (min ((A.hi:ℝ)*(B.lo:ℝ)) ((A.hi:ℝ)*(B.hi:ℝ))))) ≤ (x * sc) * (y * sc) := hb.1
    _ = x * y * (sc:ℝ)^2 := by ring
  · push_cast
    calc x * y * (sc:ℝ)^2 = (x * sc) * (y * sc) := by ring
    _ ≤ _ := hb.2
  · nlinarith [mul_nonneg (by linarith : (0:ℝ) ≤ 1 + x) (by linarith : (0:ℝ) ≤ 1 + y),
      mul_nonneg (by linarith : (0:ℝ) ≤ 1 - x) (by linarith : (0:ℝ) ≤ 1 - y)]
  · nlinarith [mul_nonneg (by linarith : (0:ℝ) ≤ 1 + x) (by linarith : (0:ℝ) ≤ 1 - y),
      mul_nonneg (by linarith : (0:ℝ) ≤ 1 - x) (by linarith : (0:ℝ) ≤ 1 + y)]

lemma imul_bounds (A B : Iv) : -sc ≤ (imul A B).lo ∧ (imul A B).hi ≤ sc :=
  ⟨le_max_right _ _, min_le_right _ _⟩

lemma imob_bounds (A B : Iv) : -sc ≤ (imob A B).lo ∧ (imob A B).hi ≤ sc :=
  ⟨le_max_right _ _, min_le_right _ _⟩

lemma mob_scale (p q : ℤ) (hden : (0:ℝ) < (sc:ℝ)^2 + (p:ℝ)*(q:ℝ)) :
    mob ((p:ℝ)/(sc:ℝ)) ((q:ℝ)/(sc:ℝ)) * (sc:ℝ) =
      (sc:ℝ)^2 * ((p:ℝ)+(q:ℝ)) / ((sc:ℝ)^2 + (p:ℝ)*(q:ℝ)) := by
  have hsc : ((sc:ℝ)) ≠ 0 := sc_pos_real.ne'
  have h1 : (1:ℝ) + (p:ℝ)/(sc:ℝ) * ((q:ℝ)/(sc:ℝ)) =
      ((sc:ℝ)^2 + (p:ℝ)*(q:ℝ)) / (sc:ℝ)^2 := by
    rw [eq_div_iff (by positivity : ((sc:ℝ)^2) ≠ 0)]
    field_simp
    ring
  rw [mob, h1, eq_div_iff hden.ne']
  field_simp
  ring

lemma imob_mem (x y : ℝ) (A B : Iv) (hxA : memIv x A) (hyB : memIv y B)
    (hx1 : -1 < x) (hx2 : x < 1) (hy1 : -1 < y) (hy2 : y < 1)
    (hA : -sc ≤ A.lo ∧ A.hi ≤ sc) (hB : -sc ≤ B.lo ∧ B.hi ≤ sc) :
    memIv (mob x y) (imob A B) := by
  obtain ⟨hxl, hxh⟩ := hxA
  obtain ⟨hyl, hyh⟩ := hyB
  have hm := mob_mem x y hx1 hx2 hy1 hy2
  -- the four endpoint values in real scale
  have hAlo1 : (-1:ℝ) ≤ (A.lo:ℝ)/(sc:ℝ) := by
    rw [le_div_iff sc_pos_real]
    have : ((-sc : ℤ):ℝ) ≤ (A.lo:ℝ) := by exact_mod_cast hA.1
    push_cast at this
    linarith
  have hAlo2 : (A.lo:ℝ)/(sc:ℝ) < 1 := lt_of_le_of_lt hxl hx2
  have hBlo1 : (-1:ℝ) ≤ (B.lo:ℝ)/(sc:ℝ) := by
    rw [le_div_iff sc_pos_real]
    have : ((-sc : ℤ):ℝ) ≤ (B.lo:ℝ) := by exact_mod_cast hB.1
    push_cast at this
    linarith
  have hBlo2 : (B.lo:ℝ)/(sc:ℝ) < 1 := lt_of_le_of_lt hyl hy2
  have hAhi1 : (-1:ℝ) < (A.hi:ℝ)/(sc:ℝ) := lt_of_lt_of_le hx1 hxh
  have hAhi2 : (A.hi:ℝ)/(sc:ℝ) ≤ 1 := by
    rw [div_le_iff sc_pos_real]
    have : (A.hi:ℝ) ≤ ((sc : ℤ):ℝ) := by exact_mod_cast hA.2
    push_cast at this
    linarith
  have hBhi1 : (-1:ℝ) < (B.hi:ℝ)/(sc:ℝ) := lt_of_lt_of_le hy1 hyh
  have hBhi2 : (B.hi:ℝ)/(sc:ℝ) ≤ 1 := by
    rw [div_le_iff sc_pos_real]
    have : (B.hi:ℝ) ≤ ((sc : ℤ):ℝ) := by exact_mod_cast hB.2
    push_cast at this
    linarith
  -- chain of monotonicity, lower side
  have hdll : (0:ℝ) < 1 + (A.lo:ℝ)/(sc:ℝ) * ((B.lo:ℝ)/(sc:ℝ)) :=
    one_add_mul_pos_lo _ _ hAlo1 hAlo2 hBlo1 hBlo2
  have hdxl : (0:ℝ) < 1 + x * ((B.lo:ℝ)/(sc:ℝ)) :=
    one_add_mul_pos_lo _ _ hx1.le hx2 hBlo1 hBlo2
  have hdxy : (0:ℝ) < 1 + x * y :=
    one_add_mul_pos_lo _ _ hx1.le hx2 hy1.le hy2
  have hlow : mob ((A.lo:ℝ)/(sc:ℝ)) ((B.lo:ℝ)/(sc:ℝ)) ≤ mob x y := by
    have s1 : mob ((A.lo:ℝ)/(sc:ℝ)) ((B.lo:ℝ)/(sc:ℝ)) ≤ mob x ((B.lo:ℝ)/(sc:ℝ)) :=
      mob_mono_left _ _ _ hxl hBlo1 hBlo2.le hdll hdxl
    have s2 : mob x ((B.lo:ℝ)/(sc:ℝ)) ≤ mob x y :=
      mob_mono_right _ _ _ hyl hx1.le hx2.le hdxl hdxy
    linarith
  -- chain of monotonicity, upper side
  have hdhh : (0:ℝ) < 1 + (A.hi:ℝ)/(sc:ℝ) * ((B.hi:ℝ)/(sc:ℝ)) :=
    one_add_mul_pos_hi _ _ hAhi1 hAhi2 hBhi1 hBhi2
  have hdxh : (0:ℝ) < 1 + x * ((B.hi:ℝ)/(sc:ℝ)) :=
    one_add_mul_pos_hi _ _ hx1 hx2.le hBhi1 hBhi2
  have hhigh : mob x y ≤ mob ((A.hi:ℝ)/(sc:ℝ)) ((B.hi:ℝ)/(sc:ℝ)) := by
    have s1 : mob x y ≤ mob x ((B.hi:ℝ)/(sc:ℝ)) :=
      mob_mono_right _ _ _ hyh hx1.le hx2.le hdxy hdxh
    have s2 : mob x ((B.hi:ℝ)/(sc:ℝ)) ≤ mob ((A.hi:ℝ)/(sc:ℝ)) ((B.hi:ℝ)/(sc:ℝ)) :=
      mob_mono_left _ _ _ hxh hBhi1.le hBhi2 hdxh hdhh
    linarith
  -- integer denominators are positive
  have hAloZ1 : -sc ≤ A.lo := hA.1
  have hAloZ2 : A.lo < sc := by
    have : (A.lo:ℝ) < (sc:ℝ) := (div_lt_one sc_pos_real).mp hAlo2
    exact_mod_cast this
  have hBloZ1 : -sc ≤ B.lo := hB.1
  have hBloZ2 : B.lo < sc := by
    have : (B.lo:ℝ) < (sc:ℝ) := (div_lt_one sc_pos_real).mp hBlo2
    exact_mod_cast this
  have hAhiZ1 : -sc < A.hi := by
    have : (-1:ℝ) * (sc:ℝ) < (A.hi:ℝ) := by
      rw [← lt_div_iff sc_pos_real]
      simpa using hAhi1
    have h5 : ((-sc : ℤ):ℝ) < (A.hi:ℝ) := by push_cast; linarith
    exact_mod_cast h5
  have hAhiZ2 : A.hi ≤ sc := hA.2
  have hBhiZ1 : -sc < B.hi := by
    have : (-1:ℝ) * (sc:ℝ) < (B.hi:ℝ) := by
      rw [← lt_div_iff sc_pos_real]
      simpa using hBhi1
    have h5 : ((-sc : ℤ):ℝ) < (B.hi:ℝ) := by push_cast; linarith
    exact_mod_cast h5
  have hBhiZ2 : B.hi ≤ sc := hB.2
  have hdll3 : (0:ℤ) < sc^2 + A.lo*B.lo := by
    nlinarith [mul_pos (by linarith : (0:ℤ) < sc - A.lo) (by linarith : (0:ℤ) < sc - B.lo),
      mul_nonneg (by linarith : (0:ℤ) ≤ sc + A.lo) (by linarith : (0:ℤ) ≤ sc + B.lo)]
  have hdhh3 : (0:ℤ) < sc^2 + A.hi*B.hi := by
    nlinarith [mul_pos (by linarith : (0:ℤ) < sc + A.hi) (by linarith : (0:ℤ) < sc + B.hi),
      mul_nonneg (by linarith : (0:ℤ) ≤ sc - A.hi) (by linarith : (0:ℤ) ≤ sc - B.hi)]
  have hdll2 : (0:ℝ) < (sc:ℝ)^2 + (A.lo:ℝ)*(B.lo:ℝ) := by
    have h5 : (0:ℝ) < ((sc^2 + A.lo*B.lo : ℤ) : ℝ) := by exact_mod_cast hdll3
    push_cast at h5
    linarith
  have hdhh2 : (0:ℝ) < (sc:ℝ)^2 + (A.hi:ℝ)*(B.hi:ℝ) := by
    have h5 : (0:ℝ) < ((sc^2 + A.hi*B.hi : ℤ) : ℝ) := by exact_mod_cast hdhh3
    push_cast at h5
    linarith
  constructor
  · show ((max (qmobDn A.lo B.lo) (-sc) : ℤ) : ℝ) / (sc:ℝ) ≤ mob x y
    rw [div_le_iff sc_pos_real]
    push_cast
    refine max_le ?_ ?_
    · have h1 : ((qmobDn A.lo B.lo : ℤ) : ℝ) ≤
          (sc:ℝ)^2 * ((A.lo:ℝ)+(B.lo:ℝ)) / ((sc:ℝ)^2 + (A.lo:ℝ)*(B.lo:ℝ)) := by
        have h2 := int_div_le_div (sc^2 * (A.lo + B.lo)) (sc^2 + A.lo*B.lo) hdll3
        rw [qmobDn]
        push_cast at h2
        convert h2 using 2
      rw [← mob_scale A.lo B.lo hdll2] at h1
      have h3 : mob ((A.lo:ℝ)/(sc:ℝ)) ((B.lo:ℝ)/(sc:ℝ)) * (sc:ℝ) ≤ mob x y * (sc:ℝ) :=
        mul_le_mul_of_nonneg_right hlow sc_pos_real.le
      linarith
    · have h6 : (-1:ℝ) * (sc:ℝ) ≤ mob x y * (sc:ℝ) :=
        mul_le_mul_of_nonneg_right hm.1.le sc_pos_real.le
      linarith
  · show mob x y ≤ ((min (qmobUp A.hi B.hi) sc : ℤ) : ℝ) / (sc:ℝ)
    rw [le_div_iff sc_pos_real]
    push_cast
    refine le_min ?_ ?_
    · have h1 : (sc:ℝ)^2 * ((A.hi:ℝ)+(B.hi:ℝ)) / ((sc:ℝ)^2 + (A.hi:ℝ)*(B.hi:ℝ)) ≤
          ((qmobUp A.hi B.hi : ℤ) : ℝ) := by
        have h2 := int_cdiv_ge (sc^2 * (A.hi + B.hi)) (sc^2 + A.hi*B.hi) hdhh3
        rw [qmobUp]
        push_cast at h2
        convert h2 using 2
      rw [← mob_scale A.hi B.hi hdhh2] at h1
      have h3 : mob x y * (sc:ℝ) ≤ mob ((A.hi:ℝ)/(sc:ℝ)) ((B.hi:ℝ)/(sc:ℝ)) * (sc:ℝ) :=
        mul_le_mul_of_nonneg_right hhigh sc_pos_real.le
      linarith
    · have h6 : mob x y * (sc:ℝ) ≤ 1 * (sc:ℝ) :=
        mul_le_mul_of_nonneg_right hm.2.le sc_pos_real.le
      linarith

/-! ### C5, part 3: guarded fold enclosures -/

lemma foldl_range_succ {α : Type*} (g : α → ℕ → α) (a : α) (n : ℕ) :
    List.foldl g a (List.range (n + 1)) = g (List.foldl g a (List.range n)) n := by
  rw [List.range_succ, List.foldl_append]
  rfl

lemma prodFoldR_succ (f : ℕ → ℝ) (p : ℕ → Prop) [DecidablePred p] (n : ℕ) :
    prodFoldR f p (n + 1) =
      if p n then prodFoldR f p n * f n else prodFoldR f p n := by
  rw [prodFoldR, foldl_range_succ]
  split <;> rfl

lemma prodFoldI_succ (F : ℕ → Iv) (p : ℕ → Prop) [DecidablePred p] (n : ℕ) :
    prodFoldI F p (n + 1) =
      if p n then imul (prodFoldI F p n) (F n) else prodFoldI F p n := by
  rw [prodFoldI, foldl_range_succ]
  split <;> rfl

lemma mobFoldR_succ (x0 : ℝ) (f : ℕ → ℝ) (p : ℕ → Prop) [DecidablePred p] (n : ℕ) :
    mobFoldR x0 f p (n + 1) =
      if p n then mob (mobFoldR x0 f p n) (f n) else mobFoldR x0 f p n := by
  rw [mobFoldR, foldl_range_succ]
  split <;> rfl

lemma mobFoldI_succ (A0 : Iv) (F : ℕ → Iv) (p : ℕ → Prop) [DecidablePred p] (n : ℕ) :
    mobFoldI A0 F p (n + 1) =
      if p n then imob (mobFoldI A0 F p n) (F n) else mobFoldI A0 F p n := by
  rw [mobFoldI, foldl_range_succ]
  split <;> rfl

lemma prodFoldR_eq_prod (f : ℕ → ℝ) (p : ℕ → Prop) [DecidablePred p] (n : ℕ) :
    prodFoldR f p n = ∏ i ∈ Finset.range n, if p i then f i else 1 := by
  induction n with
  | zero => simp [prodFoldR]
  | succ n ih =>
    rw [prodFoldR_succ, Finset.prod_range_succ, ih]
    by_cases hp : p n
    · rw [if_pos hp, if_pos hp]
    · rw [if_neg hp, if_neg hp, mul_one]

lemma prodFold_mem (f : ℕ → ℝ) (F : ℕ → Iv) (p : ℕ → Prop) [DecidablePred p]
    (hb : ∀ i, -1 < f i ∧ f i < 1)
    (hmem : ∀ i, p i → memIv (f i) (F i)) :
    ∀ n, memIv (prodFoldR f p n) (prodFoldI F p n) ∧
      (-1 ≤ prodFoldR f p n ∧ prodFoldR f p n ≤ 1) ∧
      (-sc ≤ (prodFoldI F p n).lo ∧ (prodFoldI F p n).hi ≤ sc) ∧
      ((∃ i ∈ Finset.range n, p i) →
        (-1 < prodFoldR f p n ∧ prodFoldR f p n < 1)) := by
  intro n
  induction n with
  | zero =>
    have hz : prodFoldR f p 0 = 1 := rfl
    rw [hz]
    refine ⟨⟨?_, ?_⟩, ⟨by norm_num, by norm_num⟩, ⟨?_, le_refl _⟩, ?_⟩
    · show ((sc:ℤ):ℝ) / (sc:ℝ) ≤ 1
      rw [div_self sc_pos_real.ne']
    · show (1:ℝ) ≤ ((sc:ℤ):ℝ) / (sc:ℝ)
      rw [div_self sc_pos_real.ne']
    · show (-sc : ℤ) ≤ sc
      norm_num [sc]
    · intro hex
      simp at hex
  | succ n ih =>
    obtain ⟨ihmem, ⟨ihlo, ihhi⟩, ihbnd, ihstrict⟩ := ih
    rw [prodFoldR_succ, prodFoldI_succ]
    by_cases hp : p n
    · rw [if_pos hp, if_pos hp]
      have hfi := hb n
      have habs : |prodFoldR f p n * f n| ≤ |f n| := by
        rw [abs_mul]
        have h1 : |prodFoldR f p n| ≤ 1 := abs_le.mpr ⟨ihlo, ihhi⟩
        calc |prodFoldR f p n| * |f n| ≤ 1 * |f n| :=
          mul_le_mul_of_nonneg_right h1 (abs_nonneg _)
        _ = |f n| := one_mul _
      have h2 : |f n| < 1 := abs_lt.mpr hfi
      have hstrict : -1 < prodFoldR f p n * f n ∧ prodFoldR f p n * f n < 1 := by
        constructor
        · linarith [neg_abs_le (prodFoldR f p n * f n)]
        · linarith [le_abs_self (prodFoldR f p n * f n)]
      exact ⟨imul_mem _ _ _ _ ihmem (hmem n hp) ihlo ihhi hfi.1.le hfi.2.le,
        ⟨hstrict.1.le, hstrict.2.le⟩, imul_bounds _ _, fun _ => hstrict⟩
    · rw [if_neg hp, if_neg hp]
      refine ⟨ihmem, ⟨ihlo, ihhi⟩, ihbnd, fun hex => ?_⟩
      obtain ⟨i, hi, hpi⟩ := hex
      have hin : i ∈ Finset.range n := by
        rcases Nat.lt_succ_iff_lt_or_eq.mp (Finset.mem_range.mp hi) with h | h
        · exact Finset.mem_range.mpr h
        · subst h
          exact absurd hpi hp
      exact ihstrict ⟨i, hin, hpi⟩

lemma mobFold_mem (x0 : ℝ) (A0 : Iv) (f : ℕ → ℝ) (F : ℕ → Iv) (p : ℕ → Prop) [DecidablePred p]
    (h0 : memIv x0 A0) (hx0 : -1 < x0 ∧ x0 < 1) (hA0 : -sc ≤ A0.lo ∧ A0.hi ≤ sc)
    (hm : ∀ i, p i → memIv (f i) (F i) ∧ (-1 < f i ∧ f i < 1) ∧
      (-sc ≤ (F i).lo ∧ (F i).hi ≤ sc)) :
    ∀ n, memIv (mobFoldR x0 f p n) (mobFoldI A0 F p n) ∧
      (-1 < mobFoldR x0 f p n ∧ mobFoldR x0 f p n < 1) ∧
      (-sc ≤ (mobFoldI A0 F p n).lo ∧ (mobFoldI A0 F p n).hi ≤ sc) := by
  intro n
  induction n with
  | zero => exact ⟨h0, hx0, hA0⟩
  | succ n ih =>
    obtain ⟨ihmem, ihs, ihbnd⟩ := ih
    rw [mobFoldR_succ, mobFoldI_succ]
    by_cases hp : p n
    · rw [if_pos hp, if_pos hp]
      obtain ⟨hfmem, hfs, hfbnd⟩ := hm n hp
      exact ⟨imob_mem _ _ _ _ ihmem hfmem ihs.1 ihs.2 hfs.1 hfs.2 ihbnd hfbnd,
        mob_mem _ _ ihs.1 ihs.2 hfs.1 hfs.2, imob_bounds _ _⟩
    · rw [if_neg hp, if_neg hp]
      exact ⟨ihmem, ihs, ihbnd⟩

lemma tanh_half_sum (x : ℝ) (y : ℕ → ℝ) (p : ℕ → Prop) [DecidablePred p] (n : ℕ) :
    Real.tanh ((x + ∑ i ∈ Finset.range n, if p i then y i else 0) / 2) =
      mobFoldR (Real.tanh (x / 2)) (fun i => Real.tanh (y i / 2)) p n := by
  induction n with
  | zero => simp [mobFoldR]
  | succ n ih =>
    rw [Finset.sum_range_succ, mobFoldR_succ]
    by_cases hp : p n
    · rw [if_pos hp, if_pos hp, ← ih, ← add_assoc]
      exact tanh_half_add _ _
    · rw [if_neg hp, if_neg hp, add_zero]
      exact ih

lemma mobFoldR_congr (x0 : ℝ) (f g : ℕ → ℝ) (p : ℕ → Prop) [DecidablePred p] (n : ℕ)
    (h : ∀ i, i < n → p i → f i = g i) :
    mobFoldR x0 f p n = mobFoldR x0 g p n := by
  induction n with
  | zero => rfl
  | succ n ih =>
    rw [mobFoldR_succ, mobFoldR_succ, ih (fun i hi hpi => h i (by omega) hpi)]
    by_cases hp : p n
    · rw [if_pos hp, if_pos hp, h n (by omega) hp]
    · rw [if_neg hp, if_neg hp]

/-! ### C5, part 4: certified seed enclosures from a Taylor bound on `exp(1/2)` -/

lemma p_to_l_l_to_p (x : ℝ) : p_to_l (l_to_p x) = x := by
  rw [p_to_l, l_to_p]
  have hpos : (0:ℝ) < 1 + Real.exp x := by positivity
  have h2 : 1 - Real.exp x / (1 + Real.exp x) = 1 / (1 + Real.exp x) := by
    field_simp
  rw [h2, div_div_div_cancel_right₀ hpos.ne' , div_one, Real.log_exp]

lemma exp_half_bounds :
    (18222568980299 / 11052546785280 : ℝ) ≤ Real.exp (1 / 2) ∧
    Real.exp (1 / 2) ≤ (68334633676123 / 41447050444800 : ℝ) := by
  have h := Real.exp_bound (x := (1:ℝ)/2)
    (by rw [abs_of_nonneg] <;> norm_num) (n := 13) (by norm_num)
  have hs : ∑ m ∈ Finset.range 13, ((1:ℝ)/2) ^ m / m.factorial =
      3234775558633 / 1961990553600 := by
    simp only [Finset.sum_range_succ, Finset.sum_range_zero, Nat.factorial]
    norm_num
  rw [hs, abs_of_nonneg (by norm_num : (0:ℝ) ≤ (1:ℝ)/2)] at h
  have h2 := abs_le.mp h
  norm_num [Nat.factorial] at h2
  constructor
  · have h3 := h2.1
    have : (18222568980299 / 11052546785280 : ℝ) =
        3234775558633 / 1961990553600 - 7 / 331576403558400 := by norm_num
    linarith
  · have h3 := h2.2
    have : (68334633676123 / 41447050444800 : ℝ) =
        3234775558633 / 1961990553600 + 7 / 331576403558400 := by norm_num
    linarith

lemma ratio_mono (a y : ℝ) (ha : 0 < a) (hay : a ≤ y) :
    (a - 1) / (a + 1) ≤ (y - 1) / (y + 1) := by
  rw [div_le_div_iff (by linarith) (by linarith)]
  nlinarith

lemma tanh_seed_bounds (x : ℝ) (a b : ℝ) (ha : 0 < a)
    (hay : a ≤ Real.exp x) (hyb : Real.exp x ≤ b) (l u : ℤ)
    (hl : (l : ℝ) / (sc:ℝ) ≤ (a - 1) / (a + 1)) (hu : (b - 1) / (b + 1) ≤ (u : ℝ) / (sc:ℝ)) :
    memIv (Real.tanh (x / 2)) (⟨l, u⟩ : Iv) := by
  rw [show memIv (Real.tanh (x/2)) (⟨l, u⟩ : Iv) =
    ((l : ℝ) / (sc:ℝ) ≤ Real.tanh (x/2) ∧ Real.tanh (x/2) ≤ (u : ℝ) / (sc:ℝ)) from rfl]
  rw [tanh_half_exp]
  have hypos : (0:ℝ) < Real.exp x := Real.exp_pos x
  constructor
  · have hm := ratio_mono a (Real.exp x) ha hay
    linarith
  · have hm := ratio_mono (Real.exp x) b hypos hyb
    linarith

lemma exp_half_pow (n : ℕ) (hn : 0 < n) :
    Real.exp ((n : ℝ) / 2) = Real.exp (1/2) ^ n := by
  rw [← Real.exp_nat_mul]
  ring_nf

lemma tau0_mem0 : memIv (Real.tanh ((-0.5:ℝ) / 2)) (tau0 0) := by
  have hE := exp_half_bounds
  have hxpos : (0:ℝ) < Real.exp (1/2) := Real.exp_pos _
  have hval : Real.exp (-0.5:ℝ) = (Real.exp (1/2))⁻¹ := by
    rw [show (-0.5:ℝ) = -(1/2) by norm_num, Real.exp_neg]
  have ha : ((68334633676123/41447050444800 : ℝ))⁻¹ ≤ Real.exp (-0.5:ℝ) := by
    rw [hval]
    exact inv_le_inv_of_le hxpos hE.2
  have hb : Real.exp (-0.5:ℝ) ≤ ((18222568980299/11052546785280 : ℝ))⁻¹ := by
    rw [hval]
    exact inv_le_inv_of_le (by norm_num) hE.1
  exact tanh_seed_bounds _ _ _ (by norm_num) ha hb _ _
    (by norm_num [sc]) (by norm_num [sc])

lemma tau0_mem1 : memIv (Real.tanh ((2.5:ℝ) / 2)) (tau0 1) := by
  have hE := exp_half_bounds
  have hval : Real.exp (2.5:ℝ) = Real.exp (1/2) ^ 5 := by
    have h := exp_half_pow 5 (by norm_num)
    rw [show ((5:ℕ):ℝ)/2 = (2.5:ℝ) by norm_num] at h
    exact h
  have ha : ((18222568980299/11052546785280 : ℝ)) ^ 5 ≤ Real.exp (2.5:ℝ) := by
    rw [hval]
    exact pow_le_pow_left (by norm_num) hE.1 5
  have hb : Real.exp (2.5:ℝ) ≤ ((68334633676123/41447050444800 : ℝ)) ^ 5 := by
    rw [hval]
    exact pow_le_pow_left (Real.exp_pos _).le hE.2 5
  exact tanh_seed_bounds _ _ _ (by positivity) ha hb _ _
    (by norm_num [sc]) (by norm_num [sc])

lemma tau0_mem2 : memIv (Real.tanh ((-4.0:ℝ) / 2)) (tau0 2) := by
  have hE := exp_half_bounds
  have hval : Real.exp (-4.0:ℝ) = (Real.exp (1/2) ^ 8)⁻¹ := by
    rw [show (-4.0:ℝ) = -(4:ℝ) by norm_num, Real.exp_neg]
    congr 1
    have h := exp_half_pow 8 (by norm_num)
    rw [show ((8:ℕ):ℝ)/2 = (4:ℝ) by norm_num] at h
    exact h
  have ha : (((68334633676123/41447050444800 : ℝ)) ^ 8)⁻¹ ≤ Real.exp (-4.0:ℝ) := by
    rw [hval]
    exact inv_le_inv_of_le (by positivity) (pow_le_pow_left (Real.exp_pos _).le hE.2 8)
  have hb : Real.exp (-4.0:ℝ) ≤ (((18222568980299/11052546785280 : ℝ)) ^ 8)⁻¹ := by
    rw [hval]
    exact inv_le_inv_of_le (by positivity) (pow_le_pow_left (by norm_num) hE.1 8)
  exact tanh_seed_bounds _ _ _ (by positivity) ha hb _ _
    (by norm_num [sc]) (by norm_num [sc])

lemma tau0_mem3 : memIv (Real.tanh ((5.0:ℝ) / 2)) (tau0 3) := by
  have hE := exp_half_bounds
  have hval : Real.exp (5.0:ℝ) = Real.exp (1/2) ^ 10 := by
    have h := exp_half_pow 10 (by norm_num)
    rw [show ((10:ℕ):ℝ)/2 = (5.0:ℝ) by norm_num] at h
    exact h
  have ha : ((18222568980299/11052546785280 : ℝ)) ^ 10 ≤ Real.exp (5.0:ℝ) := by
    rw [hval]
    exact pow_le_pow_left (by norm_num) hE.1 10
  have hb : Real.exp (5.0:ℝ) ≤ ((68334633676123/41447050444800 : ℝ)) ^ 10 := by
    rw [hval]
    exact pow_le_pow_left (Real.exp_pos _).le hE.2 10
  exact tanh_seed_bounds _ _ _ (by positivity) ha hb _ _
    (by norm_num [sc]) (by norm_num [sc])

lemma tau0_mem4 : memIv (Real.tanh ((-3.5:ℝ) / 2)) (tau0 4) := by
  have hE := exp_half_bounds
  have hval : Real.exp (-3.5:ℝ) = (Real.exp (1/2) ^ 7)⁻¹ := by
    rw [show (-3.5:ℝ) = -(3.5:ℝ) by norm_num, Real.exp_neg]
    congr 1
    have h := exp_half_pow 7 (by norm_num)
    rw [show ((7:ℕ):ℝ)/2 = (3.5:ℝ) by norm_num] at h
    exact h
  have ha : (((68334633676123/41447050444800 : ℝ)) ^ 7)⁻¹ ≤ Real.exp (-3.5:ℝ) := by
    rw [hval]
    exact inv_le_inv_of_le (by positivity) (pow_le_pow_left (Real.exp_pos _).le hE.2 7)
  have hb : Real.exp (-3.5:ℝ) ≤ (((18222568980299/11052546785280 : ℝ)) ^ 7)⁻¹ := by
    rw [hval]
    exact inv_le_inv_of_le (by positivity) (pow_le_pow_left (by norm_num) hE.1 7)
  exact tanh_seed_bounds _ _ _ (by positivity) ha hb _ _
    (by norm_num [sc]) (by norm_num [sc])

lemma exState_llr (v : ℕ) (hv : v < 6) : exState.channel_llr v = initial_r.getD v 0 := by
  show post_llr (state_new 8) v = _
  rw [post_llr]
  rw [if_pos (show v < (state_new 8).n_v from by rw [state_new_nv]; exact hv)]
  show p_to_l (if v < initial_r.length then l_to_p (initial_r.getD v 0) else 0.50) = _
  rw [if_pos (show v < initial_r.length from by rw [show initial_r.length = 6 from rfl]; exact hv)]
  exact p_to_l_l_to_p _

lemma seed_mem (v : ℕ) : memIv (Real.tanh (exState.channel_llr v / 2)) (tau0 v) := by
  rcases v with _|_|_|_|_|_|v
  · rw [exState_llr 0 (by norm_num), show initial_r.getD 0 0 = (-0.5:ℝ) from rfl]
    exact tau0_mem0
  · rw [exState_llr 1 (by norm_num), show initial_r.getD 1 0 = (2.50:ℝ) from rfl,
      show (2.50:ℝ) = (2.5:ℝ) by norm_num]
    exact tau0_mem1
  · rw [exState_llr 2 (by norm_num), show initial_r.getD 2 0 = (-4.0:ℝ) from rfl]
    exact tau0_mem2
  · rw [exState_llr 3 (by norm_num), show initial_r.getD 3 0 = (5.0:ℝ) from rfl]
    exact tau0_mem3
  · rw [exState_llr 4 (by norm_num), show initial_r.getD 4 0 = (-3.5:ℝ) from rfl]
    exact tau0_mem4
  · rw [exState_llr 5 (by norm_num), show initial_r.getD 5 0 = (2.5:ℝ) from rfl]
    exact tau0_mem1
  · constructor
    · show ((-sc:ℤ):ℝ) / (sc:ℝ) ≤ _
      push_cast
      rw [neg_div, div_self sc_pos_real.ne']
      exact (tanh_bounds _).1.le
    · show _ ≤ ((sc:ℤ):ℝ) / (sc:ℝ)
      rw [div_self sc_pos_real.ne']
      exact (tanh_bounds _).2.le

/-! ### C5, part 5: the example run in the tanh-half domain -/

lemma exState_nv : exState.n_v = 6 := rfl

lemma exState_nc : exState.n_c = 4 := rfl

lemma exState_matrix : exState.matrix = matQ := rfl

lemma memIv_univ (x : ℝ) (h1 : -1 ≤ x) (h2 : x ≤ 1) : memIv x ⟨-sc, sc⟩ := by
  constructor
  · show ((-sc : ℤ) : ℝ) / (sc:ℝ) ≤ x
    push_cast
    rw [neg_div, div_self sc_pos_real.ne']
    exact h1
  · show x ≤ ((sc : ℤ) : ℝ) / (sc:ℝ)
    rw [div_self sc_pos_real.ne']
    exact h2

lemma tau0_bounds (v : ℕ) : -sc ≤ (tau0 v).lo ∧ (tau0 v).hi ≤ sc := by
  rcases v with _|_|_|_|_|_|v
  · exact ⟨by decide, by decide⟩
  · exact ⟨by decide, by decide⟩
  · exact ⟨by decide, by decide⟩
  · exact ⟨by decide, by decide⟩
  · exact ⟨by decide, by decide⟩
  · exact ⟨by decide, by decide⟩
  · exact ⟨le_refl _, le_refl _⟩

lemma matQ_bound (i v : ℕ) (h : matQ i v ≠ 0) : i < 4 ∧ v < 6 := by
  constructor
  · by_contra hc
    push_neg at hc
    apply h
    have h4 : matrix.length ≤ i := by
      rw [show matrix.length = 4 from rfl]
      exact hc
    rw [matQ, List.getD_eq_default _ _ h4]
    rfl
  · by_contra hc
    push_neg at hc
    apply h
    have hrow : (matrix.getD i []).length ≤ 6 := by
      rcases i with _|_|_|_|i
      · decide
      · decide
      · decide
      · decide
      · have h4 : matrix.length ≤ i + 4 := by
          rw [show matrix.length = 4 from rfl]
          omega
        rw [List.getD_eq_default _ _ h4]
        decide
    have h6 : (matrix.getD i []).length ≤ v := le_trans hrow hc
    rw [matQ, List.getD_eq_default _ _ h6]

lemma edge_other : ∀ i ∈ Finset.range 4, ∀ v ∈ Finset.range 6, matQ i v ≠ 0 →
    ∃ j ∈ Finset.range 6, j ≠ v ∧ matQ i j ≠ 0 := by decide

lemma tanh_half_calc (r c v : ℕ)
    (hex : ∃ j ∈ Finset.range 6, j ≠ v ∧ matQ c j ≠ 0) :
    Real.tanh (calc_message_v_to_c exState (round_mcv exState r) v c / 2) = tE r c v ∧
    (-1 < tE r c v ∧ tE r c v < 1) := by
  have hb : ∀ i, -1 < thetaE r c i ∧ thetaE r c i < 1 := fun i => tanh_bounds _
  have hPF := prodFold_mem (fun i => thetaE r c i) (fun _ => (⟨-sc, sc⟩ : Iv))
    (fun i => i ≠ v ∧ matQ c i ≠ 0) hb
    (fun i _ => memIv_univ _ (hb i).1.le (hb i).2.le) 6
  have hstrict := hPF.2.2.2 hex
  have hT : (∏ i ∈ Finset.range exState.n_v,
      if i ≠ v ∧ exState.matrix c i ≠ 0 then
        Real.tanh (round_mcv exState r c i / 2) else 1) = tE r c v := by
    simp only [exState_nv, exState_matrix]
    rw [tE, prodFoldR_eq_prod]
    simp only [thetaE]
  refine ⟨?_, hstrict⟩
  simp only [calc_message_v_to_c]
  rw [hT]
  exact tanh_log_ratio _ hstrict.1 hstrict.2

lemma thetaE_succ_tE (r c v : ℕ) :
    thetaE (r + 1) c v = mobFoldR (Real.tanh (exState.channel_llr v / 2))
      (fun i => tE r i v) (fun i => i ≠ c ∧ matQ i v = 1) 4 := by
  have h2 : round_mcv exState (r + 1) c v = exState.channel_llr v +
      ∑ i ∈ Finset.range 4, if i ≠ c ∧ matQ i v = 1 then
        calc_message_v_to_c exState (round_mcv exState r) v i else 0 := by
    show calc_message_c_to_v exState
      (fun i w => calc_message_v_to_c exState (round_mcv exState r) w i) v c = _
    rw [calc_message_c_to_v]
    simp only [exState_nc, exState_matrix]
  have h1 : thetaE (r + 1) c v = Real.tanh ((exState.channel_llr v +
      ∑ i ∈ Finset.range 4, if i ≠ c ∧ matQ i v = 1 then
        calc_message_v_to_c exState (round_mcv exState r) v i else 0) / 2) := by
    rw [thetaE, h2]
  rw [h1, tanh_half_sum]
  refine mobFoldR_congr _ _ _ _ 4 fun i hi hpi => ?_
  exact (tanh_half_calc r i v (edge_other i (Finset.mem_range.mpr hi) v
    (Finset.mem_range.mpr (matQ_bound i v (by rw [hpi.2]; norm_num)).2)
    (by rw [hpi.2]; norm_num))).1

lemma belief_tanh (r v : ℕ) (hv : v < 6) :
    Real.tanh ((round_snapshot exState r).l v / 2) =
      mobFoldR (Real.tanh (exState.channel_llr v / 2))
        (fun i => tE r i v) (fun i => matQ i v ≠ 0) 4 := by
  have h1 : (round_snapshot exState r).l v = exState.channel_llr v +
      ∑ i ∈ Finset.range 4, if matQ i v ≠ 0 then
        calc_message_v_to_c exState (round_mcv exState r) v i else 0 := by
    show (mk_iteration exState (round_mcv exState r)).l v = _
    rw [mk_iteration_l]
    simp only [exState_nc, exState_matrix]
  rw [h1, tanh_half_sum]
  refine mobFoldR_congr _ _ _ _ 4 fun i hi hpi => ?_
  exact (tanh_half_calc r i v (edge_other i (Finset.mem_range.mpr hi) v
    (Finset.mem_range.mpr hv) hpi)).1

lemma tget_tab0 (c v : ℕ) (hc : c < 4) (hv : v < 6) : tget tab0 c v = tau0 v := by
  interval_cases c <;> interval_cases v <;> rfl

lemma tget_step (T : List (List Iv)) (c v : ℕ) (hc : c < 4) (hv : v < 6) :
    tget (stepTab T) c v = mobFoldI (tau0 v) (fun i => tIvTab T i v)
      (fun i => i ≠ c ∧ matQ i v = 1) 4 := by
  interval_cases c <;> interval_cases v <;> rfl

/-! ### C5, part 6: the round invariant and the final syndrome -/

lemma theta_tab_mem : ∀ r c v, c < 4 → v < 6 →
    memIv (thetaE r c v) (tget (tabs r) c v) := by
  intro r
  induction r with
  | zero =>
    intro c v hc hv
    rw [show tabs 0 = tab0 from rfl, tget_tab0 c v hc hv]
    exact seed_mem v
  | succ r ih =>
    intro c v hc hv
    rw [show tabs (r + 1) = stepTab (tabs r) from rfl, tget_step _ c v hc hv,
      thetaE_succ_tE r c v]
    refine (mobFold_mem _ _ _ _ _ (seed_mem v) (tanh_bounds _) (tau0_bounds v) ?_ 4).1
    intro i hpi
    have hne : matQ i v ≠ 0 := by
      rw [hpi.2]
      norm_num
    have hiv := matQ_bound i v hne
    have hPF := prodFold_mem (fun j => thetaE r i j) (fun j => tget (tabs r) i j)
      (fun j => j ≠ v ∧ matQ i j ≠ 0) (fun j => tanh_bounds _)
      (fun j hpj => ih i j hiv.1 (matQ_bound i j hpj.2).2) 6
    have hstrict := hPF.2.2.2 (edge_other i (Finset.mem_range.mpr hiv.1) v
      (Finset.mem_range.mpr hiv.2) hne)
    exact ⟨hPF.1, hstrict, hPF.2.2.1⟩

lemma belief_mem (v : ℕ) (hv : v < 6) :
    memIv (Real.tanh ((round_snapshot exState 7).l v / 2)) (beliefIv 7 v) := by
  rw [belief_tanh 7 v hv,
    show beliefIv 7 v = mobFoldI (tau0 v) (fun i => tIvTab (tabs 7) i v)
      (fun i => matQ i v ≠ 0) 4 from rfl]
  refine (mobFold_mem _ _ _ _ _ (seed_mem v) (tanh_bounds _) (tau0_bounds v) ?_ 4).1
  intro i hpi
  have hiv := matQ_bound i v hpi
  have hPF := prodFold_mem (fun j => thetaE 7 i j) (fun j => tget (tabs 7) i j)
    (fun j => j ≠ v ∧ matQ i j ≠ 0) (fun j => tanh_bounds _)
    (fun j hpj => theta_tab_mem 7 i j hiv.1 (matQ_bound i j hpj.2).2) 6
  have hstrict := hPF.2.2.2 (edge_other i (Finset.mem_range.mpr hiv.1) v
    (Finset.mem_range.mpr hiv.2) hpi)
  exact ⟨hPF.1, hstrict, hPF.2.2.1⟩

lemma bit_of_pos (v : ℕ) (hv : v < 6) (hlo : 0 < (beliefIv 7 v).lo) :
    (round_snapshot exState 7).codeword v = 0 := by
  have hm := (belief_mem v hv).1
  have hlo2 : (0:ℝ) < ((beliefIv 7 v).lo : ℝ) / (sc:ℝ) :=
    div_pos (by exact_mod_cast hlo) sc_pos_real
  have htanh : 0 < Real.tanh ((round_snapshot exState 7).l v / 2) :=
    lt_of_lt_of_le hlo2 hm
  have hl := (tanh_pos_iff _).mp htanh
  show (if (round_snapshot exState 7).l v < 0 then (1:ℕ) else 0) = 0
  rw [if_neg (by linarith)]

lemma bit_of_neg (v : ℕ) (hv : v < 6) (hhi : (beliefIv 7 v).hi < 0) :
    (round_snapshot exState 7).codeword v = 1 := by
  have hm := (belief_mem v hv).2
  have hhi2 : ((beliefIv 7 v).hi : ℝ) / (sc:ℝ) < 0 :=
    div_neg_of_neg_of_pos (by exact_mod_cast hhi) sc_pos_real
  have htanh : Real.tanh ((round_snapshot exState 7).l v / 2) < 0 :=
    lt_of_le_of_lt hm hhi2
  have hl := (tanh_neg_iff _).mp htanh
  show (if (round_snapshot exState 7).l v < 0 then (1:ℕ) else 0) = 1
  rw [if_pos (by linarith)]

set_option maxRecDepth 100000

lemma final_bits :
    (round_snapshot exState 7).codeword 0 = 0 ∧
    (round_snapshot exState 7).codeword 1 = 0 ∧
    (round_snapshot exState 7).codeword 2 = 1 ∧
    (round_snapshot exState 7).codeword 3 = 0 ∧
    (round_snapshot exState 7).codeword 4 = 1 ∧
    (round_snapshot exState 7).codeword 5 = 1 :=
  ⟨bit_of_pos 0 (by norm_num) (by decide),
   bit_of_pos 1 (by norm_num) (by decide),
   bit_of_neg 2 (by norm_num) (by decide),
   bit_of_pos 3 (by norm_num) (by decide),
   bit_of_neg 4 (by norm_num) (by decide),
   bit_of_neg 5 (by norm_num) (by decide)⟩

lemma final_parity (c : ℕ) (hc : c < 4) : (round_snapshot exState 7).parity c = 0 := by
  obtain ⟨h0, h1, h2, h3, h4, h5⟩ := final_bits
  show List.foldl (fun a v => if exState.matrix c v ≠ 0 then
      a ^^^ (round_snapshot exState 7).codeword v else a) 0 (List.range exState.n_v) = 0
  simp only [exState_matrix, exState_nv]
  rw [show List.range 6 = [0, 1, 2, 3, 4, 5] from rfl]
  simp only [List.foldl_cons, List.foldl_nil]
  rw [h0, h1, h2, h3, h4, h5]
  interval_cases c <;> decide

/-- C5: the end-to-end example: with the hardcoded 4x6 parity-check matrix
and initial channel LLRs `initial_r` (converted to priors by `l_to_p` in
`state_new` and back by `p_to_l` at the start of `state_solve`), running
the decoder for `N_ITERATIONS = 8` rounds yields a final-round snapshot
whose syndrome is all-zero: a valid codeword.  Proved by certified
rational interval arithmetic in the tanh-half domain. -/
theorem example_run_converges :
    N_ITERATIONS = 8 ∧
    (∀ c, c < (state_new 8).n_c →
      ((state_solve (state_new 8)).history.getD 7 emptySnapshot).parity c = 0) ∧
    display_valid (state_new 8).n_c
      ((state_solve (state_new 8)).history.getD 7 emptySnapshot).parity = true := by
  have hge : (state_solve (state_new 8)).history.getD 7 emptySnapshot =
      round_snapshot exState 7 := by
    rw [state_solve_getD (state_new 8) 7 (by rw [state_new_len]; norm_num) emptySnapshot]
    rfl
  refine ⟨rfl, ?_, ?_⟩
  · intro c hc
    rw [hge]
    exact final_parity c (by rw [state_new_nc] at hc; exact hc)
  · rw [hge, state_new_nc]
    exact (display_valid_iff 4 _).mpr (fun c hc => final_parity c hc)

/-- Witness for the end-to-end example at check 0. -/
theorem example_run_converges_witness :
    0 < (state_new 8).n_c ∧
    ((state_solve (state_new 8)).history.getD 7 emptySnapshot).parity 0 = 0 :=
  ⟨by rw [state_new_nc]; norm_num,
   example_run_converges.2.1 0 (by rw [state_new_nc]; norm_num)⟩

end Ldpc
